import Mathlib

/-!
Shallow embedding of the generation orchestrator, progress tracker,
multi-file parser/validator, port allocator and project store of the
ai-platform-generator repository, with theorems checking the
specification's claims against it.

Sources embedded:
* `backend/src/routes/generate.js` (progress tracker `updatePhase`,
  orchestrator `runBatchGeneration`);
* `backend/src/services/portManager.js` (port allocator);
* `ai-engine/src/multiFileGenerator.js` (multi-file parser and
  validator/fixer);
* `backend/src/models/Project.js` and
  `backend/src/services/deploymentManager.js` (project store, `stopApp`).
-/

namespace AIPlatform

/-! ## Progress tracker (generate.js: BATCH_PHASES, updatePhase) -/

/-- Phase status values used by the batch-generation session
(`"pending" | "in_progress" | "completed" | "failed"`). -/
inductive PhaseStatus where
  | pending
  | in_progress
  | completed
  | failed
deriving DecidableEq

/-- One entry of `generation.phases`: `{id, label, weight, status, filesGenerated}`.
The human-readable `label` plays no role in any computation and is omitted. -/
structure BatchPhase where
  id : String
  weight : Rat
  status : PhaseStatus
  filesGenerated : Nat
deriving DecidableEq

/-- `BATCH_PHASES` of generate.js: phase ids with their progress weights. -/
def BATCH_PHASES : List (String × Rat) :=
  [("setup", 5), ("backend", 30), ("frontend", 25), ("database", 15),
   ("infrastructure", 10), ("documentation", 10), ("finalizing", 5)]

/-- The in-memory generation session record, restricted to the fields that
the progress computation reads and writes (`phases`, `progress`). -/
structure GenSession where
  phases : List BatchPhase
  progress : Rat
deriving DecidableEq

/-- The session as initialized by `POST /api/generate`: every phase
`pending` with `filesGenerated: 0`, progress `0`. -/
def initialSession : GenSession :=
  { phases := BATCH_PHASES.map (fun p =>
      { id := p.1, weight := p.2, status := PhaseStatus.pending, filesGenerated := 0 }),
    progress := 0 }

/-- The weight contribution of one phase to the progress total:
`completed` phases contribute their full weight, `in_progress` phases
contribute `weight * 0.5`, `pending` and `failed` phases contribute zero. -/
def phaseContribution (p : BatchPhase) : Rat :=
  match p.status with
  | PhaseStatus.completed => p.weight
  | PhaseStatus.in_progress => p.weight * (1 / 2)
  | _ => 0

/-- The progress recomputation of `updatePhase`:
`Math.min(100, completedWeight + inProgressWeight)` where the two
accumulators together add `phaseContribution` of every phase. -/
def progressOf (phases : List BatchPhase) : Rat :=
  min 100 (phases.foldr (fun p acc => phaseContribution p + acc) 0)

/-- Mutation of the first phase whose id matches (the session's `find`
returns the first match, which `updatePhase` mutates in place). -/
def updateFirstPhase (phases : List BatchPhase) (phaseId : String)
    (f : BatchPhase → BatchPhase) : List BatchPhase :=
  match phases with
  | [] => []
  | p :: rest =>
    if p.id == phaseId then f p :: rest else p :: updateFirstPhase rest phaseId f

/-- `updatePhase(projectId, phaseId, status, filesCount)` of generate.js on
one session: set the matching phase's status (and `filesGenerated` when
`filesCount > 0`), then recompute `progress`. When no phase matches the id
the session is left unchanged. -/
def updatePhase (s : GenSession) (phaseId : String) (status : PhaseStatus)
    (filesCount : Nat) : GenSession :=
  if (s.phases.find? (fun p => p.id == phaseId)).isSome then
    let phases := updateFirstPhase s.phases phaseId (fun p =>
      { p with status := status,
               filesGenerated := if filesCount > 0 then filesCount else p.filesGenerated })
    { phases := phases, progress := progressOf phases }
  else s

/-! ## Port allocator (portManager.js) -/

/-- One persisted port assignment `{projectId, projectName, frontend,
backend, assignedAt}`; the timestamp field plays no role in any
computation and is omitted. -/
structure PortAssignment where
  projectId : String
  projectName : String
  frontend : Nat
  backend : Nat
deriving DecidableEq

/-- `PLATFORM_PORTS`: ports reserved for the platform itself. -/
def PLATFORM_PORTS : List Nat := [3000, 3001]

/-- `STARTING_PORT`: where the frontend port scan begins. -/
def STARTING_PORT : Nat := 4000

/-- `getUsedPorts()`: the set of platform ports plus every assigned
frontend/backend port (a JS `Set`; `dedup` models its uniqueness). -/
def getUsedPorts (assignments : List PortAssignment) : List Nat :=
  (PLATFORM_PORTS ++ assignments.flatMap (fun a => [a.frontend, a.backend])).dedup

/-- The `while (used.has(port)) port++` loop of `findNextPort`, with
explicit fuel. The loop terminates because a set of `n` ports cannot
contain `n + 1` consecutive candidates. -/
def findNextPortGo (used : List Nat) : Nat → Nat → Nat
  | 0, port => port
  | fuel + 1, port => if port ∈ used then findNextPortGo used fuel (port + 1) else port

/-- `findNextPort(startFrom)`: first port `≥ startFrom` not in `used`. -/
def findNextPort (used : List Nat) (startFrom : Nat) : Nat :=
  findNextPortGo used (used.length + 1) startFrom

/-- `assignPorts(projectId, projectName)`: returns the stored pair when the
project already has one; otherwise scans from `STARTING_PORT` for the
frontend port, from `frontendPort + 1` for the backend port, and appends
the new assignment to the store. Returns (new store, assignment). -/
def assignPorts (assignments : List PortAssignment) (projectId projectName : String) :
    List PortAssignment × PortAssignment :=
  match assignments.find? (fun a => a.projectId == projectId) with
  | some existing => (assignments, existing)
  | none =>
    let frontendPort := findNextPort (getUsedPorts assignments) STARTING_PORT
    let backendPort := findNextPort (getUsedPorts assignments) (frontendPort + 1)
    let assignment : PortAssignment :=
      { projectId := projectId, projectName := projectName,
        frontend := frontendPort, backend := backendPort }
    (assignments ++ [assignment], assignment)

/-- `releasePorts(projectId)`: drop the project's assignment. -/
def releasePorts (assignments : List PortAssignment) (projectId : String) :
    List PortAssignment :=
  assignments.filter (fun a => a.projectId != projectId)

/-- Port stores reachable through the allocator's operations, starting from
the empty store the module creates on first use. -/
inductive PortStoreReachable : List PortAssignment → Prop where
  | init : PortStoreReachable []
  | assignStep (s : List PortAssignment) (projectId projectName : String) :
      PortStoreReachable s → PortStoreReachable (assignPorts s projectId projectName).1
  | releaseStep (s : List PortAssignment) (projectId : String) :
      PortStoreReachable s → PortStoreReachable (releasePorts s projectId)

/-- The port sets of two assignments share no member. -/
def portsDisjoint (a b : PortAssignment) : Prop :=
  a.frontend ≠ b.frontend ∧ a.frontend ≠ b.backend ∧
  a.backend ≠ b.frontend ∧ a.backend ≠ b.backend

/-! ## Project store and deployment manager (Project.js, deploymentManager.js) -/

/-- `ProjectStatus` of Project.js: the declared status enum. -/
def ProjectStatusValues : List String :=
  ["draft", "generating", "testing", "deployed", "failed"]

/-- A persisted project record, restricted to the fields `stopApp` touches. -/
structure ProjectRecord where
  id : String
  status : String
deriving DecidableEq

/-- `updateProject(id, {status})`: overwrite the status of the record with
the given id (Project.js merges the update into the stored record). -/
def updateProjectStatus (store : List ProjectRecord) (projectId status : String) :
    List ProjectRecord :=
  store.map (fun p => if p.id == projectId then { p with status := status } else p)

/-- `stopApp(projectId)` of deploymentManager.js, as its effect on the
running-apps registry and the project store: when the app is registered as
running, kill it, drop the registry entry, and call
`updateProject(projectId, { status: "stopped" })`; otherwise a no-op. -/
def stopApp (runningApps : List String) (store : List ProjectRecord)
    (projectId : String) : List String × List ProjectRecord :=
  if projectId ∈ runningApps then
    (runningApps.filter (fun q => q != projectId),
     updateProjectStatus store projectId ("stopped"))
  else (runningApps, store)

/-! ## Generic JS-style helpers -/

/-- Whether `pat` occurs as a contiguous subsequence of `s`
(JS `String.prototype.includes` on the character lists). -/
def containsSeq (pat : List Char) : List Char → Bool
  | [] => pat.isEmpty
  | c :: rest => pat.isPrefixOf (c :: rest) || containsSeq pat rest

/-- JS `haystack.includes(needle)`. -/
def stringIncludes (haystack needle : String) : Bool :=
  containsSeq needle.data haystack.data

/-- JS `s.startsWith(pre)`. -/
def strStartsWith (s pre : String) : Bool :=
  pre.data.isPrefixOf s.data

/-- JS `s.endsWith(post)`. -/
def strEndsWith (s post : String) : Bool :=
  post.data.reverse.isPrefixOf s.data.reverse

/-- JS `s.toLowerCase()` (character-wise). -/
def jsToLower (s : String) : String :=
  String.mk (s.data.map Char.toLower)

/-- Split on `/`, keeping empty components (`"a/b".split("/")`). -/
def splitSlashGo (cur : List Char) : List Char → List String
  | [] => [String.mk cur.reverse]
  | c :: rest =>
    if c == '/' then String.mk cur.reverse :: splitSlashGo [] rest
    else splitSlashGo (c :: cur) rest

/-- The `/`-separated components of a path. -/
def splitSlash (p : String) : List String := splitSlashGo [] p.data

/-- Join components with `/`. -/
def joinSlash : List String → String
  | [] => ""
  | [x] => x
  | x :: rest => x ++ "/" ++ joinSlash rest

/-- Truthiness of a possibly-absent JS string (`undefined` and `""` are
falsy, every other string truthy). -/
def strTruthy : Option String → Bool
  | none => false
  | some s => s != ""

/-- JS object-property assignment on an association list: overwrite the
first existing entry with the key, else append (JS objects keep insertion
order; assigning an existing key keeps its position). -/
def setKey {α : Type} : List (String × α) → String → α → List (String × α)
  | [], k, v => [(k, v)]
  | (k', v') :: rest, k, v =>
    if k' == k then (k, v) :: rest else (k', v') :: setKey rest k v

/-- `Object.assign(base, adds)`: assign every entry of `adds` in order. -/
def objAssign {α : Type} (base adds : List (String × α)) : List (String × α) :=
  adds.foldl (fun acc kv => setKey acc kv.1 kv.2) base

/-- First value stored under a key (JS property read; `none` = undefined). -/
def getKey {α : Type} : List (String × α) → String → Option α
  | [], _ => none
  | (k', v) :: rest, k => if k' == k then some v else getKey rest k

/-- JS `delete obj[k]` (an object holds a key at most once; removing every
matching entry is the same operation on association lists with duplicates). -/
def eraseKey {α : Type} (m : List (String × α)) (k : String) : List (String × α) :=
  m.filter (fun kv => kv.1 != k)

/-! ## Generation orchestrator (generate.js: runBatchGeneration)

The orchestrator drives five content phases in order, accumulates their
files, and finalizes.  Its collaborators are abstracted into a `GenEnv`:
the outcome of `createProjectStructure` (setup), the outcome of each
`generateSinglePhase` call (a file map, or the message of a thrown error),
and the smoke-test verdict of `testCode`.  File-system writes inside the
finalizing step (`saveMultipleFiles`, `createBackendPackageJson`,
`createFrontendPackageJson`, `saveProjectMetadata`, the two `writeFile`
calls) live in `fileSystem.js`; per its contract (§6 of the spec) a save
returns the saved relative paths, which is how the `savedFiles` list is
built below, mirroring the push order of runBatchGeneration. -/

/-- The five content phases, in the order runBatchGeneration runs them. -/
def contentPhases : List String :=
  ["backend", "frontend", "database", "infrastructure", "documentation"]

/-- One entry of `phaseResults`: a successful phase pushes its stats (no
`error` property, hence `none`); a thrown phase pushes
`{phase, error: message}`.  The numeric stats fields (lines, tokens) feed
only log output and metadata and are omitted. -/
structure PhaseResultEntry where
  phase : String
  error : Option String
deriving DecidableEq

/-- The orchestrator's collaborators for one session, abstracted. -/
structure GenEnv where
  /-- Outcome of `createProjectStructure` in the setup phase. -/
  setupResult : Except String Unit
  /-- Outcome of `generateSinglePhase(phase, config)`: the (already
  validated and fixed) file map, or the message of the thrown error. -/
  phaseOutcome : String → Except String (List (String × String))
  /-- The `success` flag `testCode` reports when it is invoked. -/
  smokeSuccess : Bool

/-- The `phaseResults` entry one phase pushes. -/
def phaseEntry (ph : String) (outcome : Except String (List (String × String))) :
    PhaseResultEntry :=
  match outcome with
  | Except.ok _ => { phase := ph, error := none }
  | Except.error e => { phase := ph, error := some e }

/-- The files one phase merges (a thrown phase merges nothing). -/
def phaseFiles (outcome : Except String (List (String × String))) :
    List (String × String) :=
  match outcome with
  | Except.ok fs => fs
  | Except.error _ => []

/-- The per-phase loop of runBatchGeneration: on success
`Object.assign(allFiles, result.files)` and push the stats entry; on a
thrown error push `{phase, error}` and continue with the next phase. -/
def runPhases (env : GenEnv) : List (String × String) × List PhaseResultEntry :=
  contentPhases.foldl
    (fun acc ph =>
      (objAssign acc.1 (phaseFiles (env.phaseOutcome ph)),
       acc.2 ++ [phaseEntry ph (env.phaseOutcome ph)]))
    ([], [])

/-- Whether the session record was torn down at once (the catch path) or
after the 5-second grace delay (the success path's `setTimeout`). -/
inductive SessionRemoval where
  | immediate
  | delayed
deriving DecidableEq

/-- The observable outcome of one `runBatchGeneration` call. -/
structure RunResult where
  /-- The status written to the project record at the end. -/
  finalStatus : String
  /-- The `error` field written to the project record (`none` = null). -/
  finalError : Option String
  /-- The `savedFiles` list, `none` when the run never reached
  `saveMultipleFiles` (no files written to disk). -/
  savedFiles : Option (List String)
  /-- Whether a `{type: "error"}` event was pushed to streaming clients. -/
  errorEventSent : Bool
  /-- Whether a `{type: "complete"}` event was pushed. -/
  completeEventSent : Bool
  removal : SessionRemoval
  phaseResults : List PhaseResultEntry
  /-- `testResult.success` as used by the final status determination
  (`true` by default when no server file is found; meaningless on the
  catch path, where it is set to `false`). -/
  testSuccess : Bool
deriving DecidableEq

/-- The catch block of runBatchGeneration: project status `failed`, error
message recorded, `{type: "error"}` event sent, session deleted with no
delay. -/
def runCatch (e : String) (phaseResults : List PhaseResultEntry) : RunResult :=
  { finalStatus := "failed", finalError := some e, savedFiles := none,
    errorEventSent := true, completeEventSent := false,
    removal := SessionRemoval.immediate, phaseResults := phaseResults,
    testSuccess := false }

/-- The `savedFiles` list the finalizing step builds, in push order: the
relative paths `saveMultipleFiles` reports (per its §6 contract, the map's
keys), the synthesized package manifests when the model produced none,
the two env files, and the metadata document. -/
def savedFilesList (generatedFilePaths : List String) : List String :=
  generatedFilePaths
    ++ (if generatedFilePaths.any (fun f => f == "backend/package.json") then []
        else ["backend/package.json"])
    ++ (if generatedFilePaths.any (fun f => f == "frontend/package.json") then []
        else ["frontend/package.json"])
    ++ ["backend/.env", "frontend/.env.local"]
    ++ ["project.json"]

/-- The finalizing step once the phase loop is done: throw on an empty
file map, otherwise save, smoke-test the server entry point when one is
among the saved files, and determine the final status from the failed
phase count and the test verdict. -/
def finalizeRun (allFiles : List (String × String))
    (phaseResults : List PhaseResultEntry) (smokeSuccess : Bool) : RunResult :=
  if allFiles.isEmpty then
    runCatch ("No files were generated across all phases") phaseResults
  else
    let savedFiles := savedFilesList (allFiles.map (fun kv => kv.1))
    let serverFile := savedFiles.find? (fun f =>
      strEndsWith f ("server.js") || stringIncludes f ("backend/src/server.js"))
    let testSuccess := match serverFile with
      | some _ => smokeSuccess
      | none => true
    let failedPhases := phaseResults.filter (fun r => strTruthy r.error)
    let finalStatus :=
      if failedPhases.length == 0 && testSuccess then "deployed"
      else if failedPhases.length == phaseResults.length then "failed"
      else "deployed"
    { finalStatus := finalStatus,
      finalError :=
        if failedPhases.length > 0 then
          some (toString failedPhases.length ++ " phase(s) had errors")
        else none,
      savedFiles := some savedFiles,
      errorEventSent := false, completeEventSent := true,
      removal := SessionRemoval.delayed, phaseResults := phaseResults,
      testSuccess := testSuccess }

/-- `runBatchGeneration(projectId, config)` as a function of its
environment.  Setup failure and the zero-files check both throw into the
catch block; otherwise the run finalizes. -/
def runBatchGeneration (env : GenEnv) : RunResult :=
  match env.setupResult with
  | Except.error e => runCatch e []
  | Except.ok _ => finalizeRun (runPhases env).1 (runPhases env).2 env.smokeSuccess

/-- The number of content phases whose outcome is a thrown error with a
truthy message — the quantity `phaseResults.filter(p => p.error).length`
computes, expressed over the environment. -/
def failedPhaseCount (env : GenEnv) : Nat :=
  (contentPhases.filter (fun ph =>
    match env.phaseOutcome ph with
    | Except.ok _ => false
    | Except.error e => e != "")).length

/-! ## JSON values and file contents (multiFileGenerator.js)

The validator/fixer parses manifest files with `JSON.parse` and writes
them back with `JSON.stringify(pkg, null, 2)`.  A file's content is
represented by `FileContent`: `jsonVal j` stands for a string that
`JSON.parse` accepts with result `j`, identified with its canonical
`JSON.stringify` serialization (which parses back to the same value);
`text s` stands for a string that `JSON.parse` rejects.  The fixer's
string-level operations (the bcrypt rewrite, the require scan) apply only
to `.js`/`.ts` paths, which the embedding represents with `text`; on a
`jsonVal` content they are defined to find nothing. -/

/-- A JSON value as a JS object graph.  Object fields keep insertion
order, as JS objects do.  An array carries, besides its elements, the
named (non-index) properties a JS property write may have attached to the
array object: `JSON.parse` never produces any, reads and writes see them,
and `JSON.stringify` drops them (`jsonNorm` below). -/
inductive Json where
  | jnull
  | jbool (b : Bool)
  | jnum (n : Int)
  | jstr (s : String)
  | jarr (elems : List Json) (props : List (String × Json))
  | jobj (fields : List (String × Json))

/-- JS truthiness of a possibly-undefined value. -/
def jsTruthy : Option Json → Bool
  | none => false
  | some Json.jnull => false
  | some (Json.jbool b) => b
  | some (Json.jnum n) => n != 0
  | some (Json.jstr s) => s != ""
  | some (Json.jarr _ _) => true
  | some (Json.jobj _) => true

/-- Reading `pkg[k]`: objects look the field up, arrays look among their
named properties (the fixer's keys are never numeric, so element indices
never interfere); reading a property of `null` throws a TypeError;
reading a property of any other primitive yields `undefined`. -/
def jsRead : Json → String → Except Unit (Option Json)
  | Json.jobj fields, k => Except.ok (getKey fields k)
  | Json.jarr _ props, k => Except.ok (getKey props k)
  | Json.jnull, _ => Except.error ()
  | _, _ => Except.ok none

/-- Writing `pkg[k] = v` in strict-mode JS (the module is ESM): allowed on
objects and on arrays (an array is an ordinary object; a non-index write
lands among its named properties and survives until serialization); a
write on `null` or a primitive throws a TypeError. -/
def jsWrite : Json → String → Json → Except Unit Json
  | Json.jobj fields, k, v => Except.ok (Json.jobj (setKey fields k v))
  | Json.jarr elems props, k, v => Except.ok (Json.jarr elems (setKey props k v))
  | _, _, _ => Except.error ()

mutual

/-- The value `JSON.parse(JSON.stringify(j))`: serialization keeps object
fields and array elements but drops the named properties of arrays, at
every depth. -/
def jsonNorm : Json → Json
  | Json.jnull => Json.jnull
  | Json.jbool b => Json.jbool b
  | Json.jnum n => Json.jnum n
  | Json.jstr s => Json.jstr s
  | Json.jarr elems _ => Json.jarr (jsonNormList elems) []
  | Json.jobj fields => Json.jobj (jsonNormFields fields)

/-- `jsonNorm` on each element of an array. -/
def jsonNormList : List Json → List Json
  | [] => []
  | j :: rest => jsonNorm j :: jsonNormList rest

/-- `jsonNorm` on each field value of an object. -/
def jsonNormFields : List (String × Json) → List (String × Json)
  | [] => []
  | kv :: rest => (kv.1, jsonNorm kv.2) :: jsonNormFields rest

end

/-- A file's content: a JSON.parse-accepted string, by its parse, or any
other string verbatim. -/
inductive FileContent where
  | text (s : String)
  | jsonVal (j : Json)

/-- JS truthiness of a file-map property holding a content string
(`undefined` and `""` falsy; a serialized JSON value is never empty). -/
def contentTruthy : FileContent → Bool
  | FileContent.text s => s != ""
  | FileContent.jsonVal _ => true

/-- `content.includes(needle)`; a serialized manifest is never searched by
the fixer, so the `jsonVal` case finds nothing. -/
def contentIncludes (c : FileContent) (needle : String) : Bool :=
  match c with
  | FileContent.text s => stringIncludes s needle
  | FileContent.jsonVal _ => false

/-! ## Validator/fixer (multiFileGenerator.js: validateAndFixFiles) -/

/-- `REQUIRED_BACKEND_PACKAGES.dependencies`. -/
def REQUIRED_BACKEND_DEPENDENCIES : List (String × String) :=
  [("bcryptjs", "^2.4.3"), ("cors", "^2.8.5"), ("dotenv", "^16.3.1"),
   ("express", "^4.18.2"), ("express-rate-limit", "^7.1.5"),
   ("express-validator", "^7.0.1"), ("helmet", "^7.1.0"),
   ("jsonwebtoken", "^9.0.2"), ("pg", "^8.11.3"), ("sequelize", "^6.35.2"),
   ("uuid", "^9.0.1"), ("winston", "^3.11.0")]

/-- `REQUIRED_BACKEND_PACKAGES.devDependencies`. -/
def REQUIRED_BACKEND_DEV_DEPENDENCIES : List (String × String) :=
  [("jest", "^29.7.0"), ("supertest", "^6.3.3")]

/-- `REQUIRED_FRONTEND_PACKAGES.dependencies`. -/
def REQUIRED_FRONTEND_DEPENDENCIES : List (String × String) :=
  [("next", "14.0.4"), ("react", "^18.2.0"), ("react-dom", "^18.2.0"),
   ("axios", "^1.6.2"), ("tailwindcss", "^3.4.0"),
   ("autoprefixer", "^10.4.16"), ("postcss", "^8.4.32")]

/-- `REQUIRED_FRONTEND_PACKAGES.devDependencies`. -/
def REQUIRED_FRONTEND_DEV_DEPENDENCIES : List (String × String) :=
  [("@types/node", "^20.10.5"), ("@types/react", "^18.2.45"),
   ("@types/react-dom", "^18.2.18"), ("typescript", "^5.3.3"),
   ("eslint", "^8.56.0"), ("eslint-config-next", "14.0.4")]

/-- The ECMAScript whitespace class, as matched by the `\s` of the
fixer's and parser's regexes and stripped by `String.prototype.trim`:
WhiteSpace (TAB, VT, FF, SP, NBSP, ZWNBSP and the Unicode Space_Separator
category U+1680, U+2000-U+200A, U+202F, U+205F, U+3000) together with the
LineTerminators LF, CR, LS, PS. -/
def isJsWs (c : Char) : Bool :=
  c == ' ' || c == '\t' || c == '\n' || c == '\r' || c == '\x0b' || c == '\x0c' ||
  c == '\u00A0' || c == '\u1680' || ('\u2000' ≤ c && c ≤ '\u200A') ||
  c == '\u2028' || c == '\u2029' || c == '\u202F' || c == '\u205F' ||
  c == '\u3000' || c == '\uFEFF'

/-- Helper for `squashWsDash`: `inRun` records whether the previous
character was whitespace (the dash is emitted at a run's first char). -/
def squashWsDashGo (inRun : Bool) : List Char → List Char
  | [] => []
  | c :: rest =>
    if isJsWs c then (if inRun then [] else ['-']) ++ squashWsDashGo true rest
    else c :: squashWsDashGo false rest

/-- `config.name.toLowerCase().replace(/\s+/g, "-")`: each maximal
whitespace run becomes one dash. -/
def squashWsDash (l : List Char) : List Char := squashWsDashGo false l

/-- The default backend package name the fixer synthesizes. -/
def backendPackageName (name : String) : String :=
  String.mk (squashWsDash (jsToLower name).data) ++ "-backend"

/-- The default frontend package name the fixer synthesizes. -/
def frontendPackageName (name : String) : String :=
  String.mk (squashWsDash (jsToLower name).data) ++ "-frontend"

/-- The project configuration fields the fixer reads. -/
structure GenConfig where
  name : String

/-- Threaded fixer state: the parsed manifest and the fixes pushed so far.
An `error` carries the fixes already pushed when the TypeError was thrown:
the catch block returns the shared `fixes` array as it stands. -/
def FixStep : Type := Except (List String) (Json × List String)

/-- Sequencing of fixer steps inside one try block. -/
def andThenFix (r : FixStep) (f : Json → List String → FixStep) : FixStep :=
  match r with
  | Except.error fs => Except.error fs
  | Except.ok (p, fx) => f p fx

/-- `if (!pkg.k) { pkg.k = v; fixes.push(msg) }` (no push when `msg` is
`none`, as for the `version` default). -/
def ensureTopField (pkg : Json) (fixes : List String) (k : String) (v : Json)
    (msg : Option String) : FixStep :=
  match jsRead pkg k with
  | Except.error _ => Except.error fixes
  | Except.ok cur =>
    if jsTruthy cur then Except.ok (pkg, fixes)
    else
      match jsWrite pkg k v with
      | Except.error _ => Except.error fixes
      | Except.ok pkg' =>
        Except.ok (pkg', fixes ++ (match msg with | some m => [m] | none => []))

/-- `if (!pkg.parent.child) { pkg.parent.child = v; fixes.push(msg) }`:
reading `.child` of an `undefined` parent throws, and so does assigning a
property of a primitive parent. -/
def ensureSubField (pkg : Json) (fixes : List String) (parent child : String)
    (v : Json) (msg : String) : FixStep :=
  match jsRead pkg parent with
  | Except.error _ => Except.error fixes
  | Except.ok none => Except.error fixes
  | Except.ok (some pv) =>
    match jsRead pv child with
    | Except.error _ => Except.error fixes
    | Except.ok cur =>
      if jsTruthy cur then Except.ok (pkg, fixes)
      else
        match jsWrite pv child v with
        | Except.error _ => Except.error fixes
        | Except.ok pv' =>
          match jsWrite pkg parent pv' with
          | Except.error _ => Except.error fixes
          | Except.ok pkg' => Except.ok (pkg', fixes ++ [msg])

/-- The `for (const [dep, version] of Object.entries(...))` loops: ensure
every required entry under `pkg[parent]`, pushing `label + dep` per add. -/
def ensureDepEntries (parent label : String) :
    List (String × String) → Json → List String → FixStep
  | [], pkg, fixes => Except.ok (pkg, fixes)
  | (dep, ver) :: rest, pkg, fixes =>
    match ensureSubField pkg fixes parent dep (Json.jstr ver) (label ++ dep) with
    | Except.error fs => Except.error fs
    | Except.ok (pkg', fixes') => ensureDepEntries parent label rest pkg' fixes'

/-- `if (pkg.dependencies.bcrypt) { delete pkg.dependencies.bcrypt;
fixes.push(...) }`.  A truthy read implies the dependencies value is an
object, so the delete always lands on an object. -/
def removeBcryptDep (pkg : Json) (fixes : List String) : FixStep :=
  match jsRead pkg "dependencies" with
  | Except.error _ => Except.error fixes
  | Except.ok none => Except.error fixes
  | Except.ok (some deps) =>
    match jsRead deps "bcrypt" with
    | Except.error _ => Except.error fixes
    | Except.ok cur =>
      if jsTruthy cur then
        match deps with
        | Json.jobj df =>
          match jsWrite pkg "dependencies" (Json.jobj (eraseKey df "bcrypt")) with
          | Except.error _ => Except.error fixes
          | Except.ok pkg' =>
            Except.ok (pkg', fixes ++ ["Removed bcrypt (using bcryptjs instead)"])
        | _ => Except.error fixes
      else Except.ok (pkg, fixes)

/-- The try-block body of `fixBackendPackageJson`, after `JSON.parse`
succeeded with `j`. -/
def fixBackendPackageJsonCore (j : Json) (cfg : GenConfig) : FixStep :=
  andThenFix (ensureTopField j [] ("name")
      (Json.jstr (backendPackageName cfg.name)) (some "Added package name"))
    (fun p1 f1 => andThenFix (ensureTopField p1 f1 ("version") (Json.jstr "1.0.0") none)
    (fun p2 f2 => andThenFix (ensureTopField p2 f2 ("main") (Json.jstr "src/server.js")
      (some "Added main entry point"))
    (fun p3 f3 => andThenFix (ensureTopField p3 f3 ("scripts") (Json.jobj []) none)
    (fun p4 f4 => andThenFix (ensureSubField p4 f4 ("scripts") ("start")
      (Json.jstr "node src/server.js") ("Added start script"))
    (fun p5 f5 => andThenFix (ensureSubField p5 f5 ("scripts") ("dev")
      (Json.jstr "node --watch src/server.js") ("Added dev script"))
    (fun p6 f6 => andThenFix (ensureTopField p6 f6 ("dependencies") (Json.jobj []) none)
    (fun p7 f7 => andThenFix
      (ensureDepEntries ("dependencies") ("Added missing dependency: ")
        REQUIRED_BACKEND_DEPENDENCIES p7 f7)
    (fun p8 f8 => andThenFix (removeBcryptDep p8 f8)
    (fun p9 f9 => andThenFix (ensureTopField p9 f9 ("devDependencies") (Json.jobj []) none)
    (fun p10 f10 =>
      ensureDepEntries ("devDependencies") ("Added missing devDependency: ")
        REQUIRED_BACKEND_DEV_DEPENDENCIES p10 f10))))))))))

/-- `fixBackendPackageJson(content, config)`: parse, repair, re-serialize
with `JSON.stringify` (which drops named array properties, hence the
`jsonNorm`); on an unparseable content or a thrown TypeError, return the
original content with whatever fixes were pushed before the throw. -/
def fixBackendPackageJson (content : FileContent) (cfg : GenConfig) :
    FileContent × List String :=
  match content with
  | FileContent.text s => (FileContent.text s, [])
  | FileContent.jsonVal j =>
    match fixBackendPackageJsonCore j cfg with
    | Except.ok (j', fixes) => (FileContent.jsonVal (jsonNorm j'), fixes)
    | Except.error fixes => (FileContent.jsonVal j, fixes)

/-- The try-block body of `fixFrontendPackageJson`. -/
def fixFrontendPackageJsonCore (j : Json) (cfg : GenConfig) : FixStep :=
  andThenFix (ensureTopField j [] ("name")
      (Json.jstr (frontendPackageName cfg.name)) (some "Added package name"))
    (fun p1 f1 => andThenFix (ensureTopField p1 f1 ("scripts") (Json.jobj []) none)
    (fun p2 f2 => andThenFix (ensureSubField p2 f2 ("scripts") ("dev")
      (Json.jstr "next dev") ("Added dev script"))
    (fun p3 f3 => andThenFix (ensureSubField p3 f3 ("scripts") ("build")
      (Json.jstr "next build") ("Added build script"))
    (fun p4 f4 => andThenFix (ensureSubField p4 f4 ("scripts") ("start")
      (Json.jstr "next start") ("Added start script"))
    (fun p5 f5 => andThenFix (ensureTopField p5 f5 ("dependencies") (Json.jobj []) none)
    (fun p6 f6 => andThenFix
      (ensureDepEntries ("dependencies") ("Added missing dependency: ")
        REQUIRED_FRONTEND_DEPENDENCIES p6 f6)
    (fun p7 f7 => andThenFix (ensureTopField p7 f7 ("devDependencies") (Json.jobj []) none)
    (fun p8 f8 =>
      ensureDepEntries ("devDependencies") ("Added missing devDependency: ")
        REQUIRED_FRONTEND_DEV_DEPENDENCIES p8 f8))))))))

/-- `fixFrontendPackageJson(content, config)`: parse, repair,
re-serialize with `JSON.stringify` as in the backend case. -/
def fixFrontendPackageJson (content : FileContent) (cfg : GenConfig) :
    FileContent × List String :=
  match content with
  | FileContent.text s => (FileContent.text s, [])
  | FileContent.jsonVal j =>
    match fixFrontendPackageJsonCore j cfg with
    | Except.ok (j', fixes) => (FileContent.jsonVal (jsonNorm j'), fixes)
    | Except.error fixes => (FileContent.jsonVal j, fixes)

/-- `require('bcrypt')`, both quotes single. -/
def bcryptPatSS : List Char := "require('bcrypt')".data

/-- `require("bcrypt")`, both quotes double. -/
def bcryptPatDD : List Char := "require(\"bcrypt\")".data

/-- The mismatched-quote form the replace regex also matches. -/
def bcryptPatSD : List Char := "require('bcrypt\")".data

/-- The other mismatched-quote form. -/
def bcryptPatDS : List Char := "require(\"bcrypt')".data

/-- The replacement text `require('bcryptjs')`. -/
def bcryptReplacement : List Char := "require('bcryptjs')".data

/-- Whether `l` starts with a match of `/require\(['"]bcrypt['"]\)/`
(the two quote classes match independently: four literal forms). -/
def isBcryptPat (l : List Char) : Bool :=
  bcryptPatSS.isPrefixOf l || bcryptPatSD.isPrefixOf l ||
  bcryptPatDS.isPrefixOf l || bcryptPatDD.isPrefixOf l

/-- `.replace(/require\(['"]bcrypt['"]\)/g, "require('bcryptjs')")`:
left-to-right scan replacing each non-overlapping match (every form is 17
characters long). -/
def replaceBcryptChars : List Char → List Char
  | [] => []
  | c :: rest =>
    if isBcryptPat (c :: rest) then
      bcryptReplacement ++ replaceBcryptChars (rest.drop 16)
    else c :: replaceBcryptChars rest
termination_by l => l.length
decreasing_by
  · exact Nat.lt_succ_of_le (le_trans (rest.length_drop 16 ▸ Nat.sub_le _ _) (le_refl _))
  · exact Nat.lt_succ_self _

/-- Step 2 of `validateAndFixFiles` on one file: when the content contains
a matching-quote `require('bcrypt')` call, run the replace; the condition
checks only the two matching-quote forms. -/
def fixBcryptInFile (c : FileContent) : FileContent × Bool :=
  if contentIncludes c ("require('bcrypt')") || contentIncludes c ("require(\"bcrypt\")") then
    (match c with
     | FileContent.text s => FileContent.text (String.mk (replaceBcryptChars s.data))
     | FileContent.jsonVal j => FileContent.jsonVal j, true)
  else (c, false)

/-- Step 2 of `validateAndFixFiles` over the whole map: every entry whose
path starts with `backend/` and ends with `.js` goes through the bcrypt
check, in insertion order, pushing one fix message per rewritten file. -/
def applyBcryptFixes : List (String × FileContent) →
    List (String × FileContent) × List String
  | [] => ([], [])
  | (path, c) :: rest =>
    let tail := applyBcryptFixes rest
    if strStartsWith path ("backend/") && strEndsWith path (".js") then
      let r := fixBcryptInFile c
      ((path, r.1) :: tail.1,
       (if r.2 then ["Fixed bcrypt -> bcryptjs in " ++ path] else []) ++ tail.2)
    else ((path, c) :: tail.1, tail.2)

/-- A quote character, as the regex class `['"]`. -/
def isQuote (c : Char) : Bool := c == '\'' || c == '"'

/-- `\.\.?\/` at the start of `l`: the leading `./` or `../` of a relative
import, with the rest of the input. -/
def relStart : List Char → Option (List Char × List Char)
  | '.' :: '.' :: '/' :: rest => some (['.', '.', '/'], rest)
  | '.' :: '/' :: rest => some (['.', '/'], rest)
  | _ => none

/-- A match of `/require\(['"](\.\.?\/[^'"]+)['"]\)/` at the head of `l`:
returns the captured import path and the input after the match.  The body
`[^'"]+` is the maximal nonempty quote-free run; the closing quote need
not match the opening one. -/
def tryRequireAt (l : List Char) : Option (List Char × List Char) :=
  if ("require(".data).isPrefixOf l then
    match l.drop 8 with
    | q :: rest1 =>
      if isQuote q then
        match relStart rest1 with
        | some (dots, rest2) =>
          let body := rest2.takeWhile (fun c => !(isQuote c))
          if body.isEmpty then none
          else
            match rest2.drop body.length with
            | q2 :: ')' :: rest4 =>
              if isQuote q2 then some (dots ++ body, rest4) else none
            | _ => none
        | none => none
      else none
    | [] => none
  else none

/-- The `while ((match = requireRegex.exec(content)) !== null)` loop:
captured import paths of all matches, left to right; scanning resumes
after each match.  Fuel bounds the iteration count (each step consumes at
least one character). -/
def requireScanGo (fuel : Nat) (l : List Char) : List String :=
  match fuel with
  | 0 => []
  | fuel + 1 =>
    match l with
    | [] => []
    | c :: rest =>
      match tryRequireAt (c :: rest) with
      | some capRest => String.mk capRest.1 :: requireScanGo fuel capRest.2
      | none => requireScanGo fuel rest

/-- All relative `require` import paths of a file's content. -/
def requireMatches : FileContent → List String
  | FileContent.text s => requireScanGo (s.data.length + 1) s.data
  | FileContent.jsonVal _ => []

/-- `path.posix.normalize`, for the relative paths at hand: split on `/`,
drop empty and `.` components, let `..` pop the previous component (or
survive at the front), and rejoin; an empty result is `.`. -/
def posixNormalize (p : String) : String :=
  let stack := (splitSlash p).foldl
    (fun st c =>
      if c == "" || c == "." then st
      else if c == ".." then
        match st with
        | [] => [".."]
        | top :: restSt => if top == ".." then ".." :: top :: restSt else restSt
      else c :: st) []
  let parts := stack.reverse
  if parts.isEmpty then "." else joinSlash parts

/-- `path.dirname` (posix): everything before the last slash-separated
component; `.` when there is no slash. -/
def posixDirname (p : String) : String :=
  let comps := splitSlash p
  if comps.length ≤ 1 then "." else joinSlash comps.dropLast

/-- `resolveImportPath(fromFile, importPath)`:
`path.posix.normalize(path.posix.join(dirname(fromFile), importPath))`. -/
def resolveImportPath (fromFile importPath : String) : String :=
  posixNormalize (posixDirname fromFile ++ "/" ++ importPath)

/-- `validateAndFixImports(files)`: for every `.js`/`.ts` file, warn about
each relative `require` whose resolved target (as given, with `.js`, or
with `/index.js`) is not among the map's keys.  Only warnings are
produced; no file is changed. -/
def validateAndFixImports (files : List (String × FileContent)) : List String :=
  let existingFiles := files.map (fun kv => kv.1)
  files.flatMap (fun kv =>
    if strEndsWith kv.1 (".js") || strEndsWith kv.1 (".ts") then
      (requireMatches kv.2).flatMap (fun importPath =>
        let resolvedPath := resolveImportPath kv.1 importPath
        let possiblePaths := [resolvedPath, resolvedPath ++ ".js", resolvedPath ++ "/index.js"]
        if possiblePaths.any (fun pp => existingFiles.any (fun e => e == pp)) then []
        else ["Warning: " ++ kv.1 ++ " imports '" ++ importPath ++
              "' but file not found at " ++ resolvedPath])
    else [])

/-- `validateAndFixFiles(files, config)`: (1) repair the backend and
frontend manifests when present and truthy; (2) rewrite
`require('bcrypt')` in backend `.js` files; (3) collect dangling-import
warnings; (4) delete the env-file entries the model may have produced.
Returns the fixed map and the fix list in push order. -/
def validateAndFixFiles (files : List (String × FileContent)) (cfg : GenConfig) :
    List (String × FileContent) × List String :=
  let st1 :=
    match getKey files "backend/package.json" with
    | some c =>
      if contentTruthy c then
        let r := fixBackendPackageJson c cfg
        (setKey files "backend/package.json" r.1, r.2)
      else (files, [])
    | none => (files, [])
  let st2 :=
    match getKey st1.1 "frontend/package.json" with
    | some c =>
      if contentTruthy c then
        let r := fixFrontendPackageJson c cfg
        (setKey st1.1 "frontend/package.json" r.1, st1.2 ++ r.2)
      else (st1.1, st1.2)
    | none => (st1.1, st1.2)
  let st3 := applyBcryptFixes st2.1
  let importFixes := validateAndFixImports st3.1
  let cleaned :=
    eraseKey (eraseKey (eraseKey st3.1 "backend/.env") "backend/.env.example")
      "frontend/.env.local"
  (cleaned, st2.2 ++ st3.2 ++ importFixes)

/-! ## Multi-file response parser (multiFileGenerator.js: parseMultiFileResponse)

The parser is the regex loop
`/===FILE:\s*([^\s=]+)\s*===\n([\s\S]*?)===END FILE===/g`: find the next
`===FILE:`, read the whitespace-trimmed path (nonempty, no whitespace, no
`=`; all quantifiers here are deterministic maximal-munch, since no
shorter munch can make a later literal match), expect `===` and a
newline, and capture lazily up to the first `===END FILE===`.  When the
header does not parse the engine moves one position on; when no end
marker follows, no further match exists at all. -/

/-- The literal `===FILE:`. -/
def fileMarker : List Char := "===FILE:".data

/-- The literal `===END FILE===`. -/
def endMarker : List Char := "===END FILE===".data

/-- Index of the first occurrence of `pat` in `l`. -/
def findSubIdx? (pat : List Char) : List Char → Option Nat
  | [] => if pat.isEmpty then some 0 else none
  | c :: rest =>
    if pat.isPrefixOf (c :: rest) then some 0
    else (findSubIdx? pat rest).map (fun n => n + 1)

/-- `\s*([^\s=]+)\s*===\n` right after a `===FILE:`: the captured path and
the input after the newline. -/
def parseFileHeader (l : List Char) : Option (List Char × List Char) :=
  let l1 := l.dropWhile isJsWs
  let path := l1.takeWhile (fun c => !(isJsWs c) && c != '=')
  if path.isEmpty then none
  else
    match (l1.drop path.length).dropWhile isJsWs with
    | '=' :: '=' :: '=' :: '\n' :: rest => some (path, rest)
    | _ => none

/-- The regex loop.  One fuel unit per iteration; every iteration consumes
at least one character, so `length + 1` fuel suffices. -/
def parseFilesGo (fuel : Nat) (l : List Char) : List (List Char × List Char) :=
  match fuel with
  | 0 => []
  | fuel + 1 =>
    match findSubIdx? fileMarker l with
    | none => []
    | some i =>
      match parseFileHeader (l.drop (i + 8)) with
      | none => parseFilesGo fuel (l.drop (i + 1))
      | some (path, rest) =>
        match findSubIdx? endMarker rest with
        | none => []
        | some j =>
          (path, rest.take j) :: parseFilesGo fuel (rest.drop (j + 14))

/-- JS `String.prototype.trim` (ASCII whitespace). -/
def jsTrim (l : List Char) : List Char :=
  ((l.dropWhile isJsWs).reverse.dropWhile isJsWs).reverse

/-- `parseMultiFileResponse(response)`: run the regex loop and store
`files[path.trim()] = content.trim()` for each match (a repeated path
overwrites the earlier entry). -/
def parseMultiFileResponse (response : String) : List (String × String) :=
  (parseFilesGo (response.data.length + 1) response.data).foldl
    (fun acc pc => setKey acc (String.mk (jsTrim pc.1)) (String.mk (jsTrim pc.2))) []

/-- Modelled from the spec: serialization of one file into the marker
format the system prompt documents (`===FILE: path===`, the content, then
`===END FILE===` on its own line). -/
def serializeFile (path content : String) : String :=
  "===FILE: " ++ path ++ "===\n" ++ content ++ "\n===END FILE==="

/-- Modelled from the spec: a file map serialized block by block, blocks
separated by a blank line. -/
def serializeFileMap : List (String × String) → String
  | [] => ""
  | kv :: rest => serializeFile kv.1 kv.2 ++ "\n\n" ++ serializeFileMap rest

/-- A path the marker format can carry: nonempty, no whitespace, no `=`. -/
def validFilePath (p : String) : Bool :=
  !p.data.isEmpty && p.data.all (fun c => !(isJsWs c) && c != '=')

/-- A content the marker format can carry verbatim: no leading or trailing
whitespace (the parser trims its capture) and no embedded end marker. -/
def validFileContent (c : String) : Bool :=
  (c.data.dropWhile isJsWs == c.data) &&
  (c.data.reverse.dropWhile isJsWs == c.data.reverse) &&
  !(containsSeq endMarker c.data)

/-! ## Auxiliary notions used by the claim statements -/

/-- The contribution level of a phase status (`completed` a full weight,
`in_progress` half, `pending`/`failed` zero). -/
def statusRank : PhaseStatus → Nat
  | PhaseStatus.completed => 2
  | PhaseStatus.in_progress => 1
  | _ => 0

/-- Whether the backend-manifest repair of `validateAndFixFiles` on this
map runs to completion (no thrown TypeError inside its try block). -/
def backendManifestRepairOk (files : List (String × FileContent)) (cfg : GenConfig) : Bool :=
  match getKey files "backend/package.json" with
  | none => true
  | some c =>
    if contentTruthy c then
      match c with
      | FileContent.text _ => true
      | FileContent.jsonVal j =>
        match fixBackendPackageJsonCore j cfg with
        | Except.ok _ => true
        | Except.error _ => false
    else true

/-- Step 1 of `validateAndFixFiles` (the backend-manifest repair), as a
stage of its own: the `st1` let-binding of the source function. -/
def backendStage (files : List (String × FileContent)) (cfg : GenConfig) :
    List (String × FileContent) × List String :=
  match getKey files "backend/package.json" with
  | some c =>
    if contentTruthy c then
      let r := fixBackendPackageJson c cfg
      (setKey files "backend/package.json" r.1, r.2)
    else (files, [])
  | none => (files, [])

/-- Steps 1-2 of `validateAndFixFiles` (both manifest repairs): the `st2`
let-binding of the source function. -/
def manifestStage (files : List (String × FileContent)) (cfg : GenConfig) :
    List (String × FileContent) × List String :=
  let st1 := backendStage files cfg
  match getKey st1.1 "frontend/package.json" with
  | some c =>
    if contentTruthy c then
      let r := fixFrontendPackageJson c cfg
      (setKey st1.1 "frontend/package.json" r.1, st1.2 ++ r.2)
    else (st1.1, st1.2)
  | none => (st1.1, st1.2)

/-! ## Association-list lemmas -/

theorem getKey_eraseKey_self {α : Type} (m : List (String × α)) (k : String) :
    getKey (eraseKey m k) k = none := by
  induction m with
  | nil => rfl
  | cons kv rest ih =>
    by_cases h : kv.1 = k
    · simpa [eraseKey, List.filter_cons, h] using ih
    · simpa [eraseKey, List.filter_cons, getKey, h] using ih

theorem getKey_eraseKey_ne {α : Type} (m : List (String × α)) {k k' : String}
    (h : k ≠ k') : getKey (eraseKey m k') k = getKey m k := by
  induction m with
  | nil => rfl
  | cons kv rest ih =>
    by_cases hk : kv.1 = k'
    · have hne : (kv.1 == k) = false := by
        refine beq_eq_false_iff_ne.mpr ?_
        intro hkk
        exact h (hkk ▸ hk)
      have hf : (kv.1 != k') = false := by simp [hk]
      simp only [eraseKey, List.filter_cons, hf, if_false, getKey, hne]
      exact ih
    · have ht : (kv.1 != k') = true := by simp [hk]
      by_cases hkk : kv.1 = k
      · have hbeq : (kv.1 == k) = true := beq_iff_eq.mpr hkk
        simp only [eraseKey, List.filter_cons, ht, if_true, getKey, hbeq]
      · have hne : (kv.1 == k) = false := beq_eq_false_iff_ne.mpr hkk
        simp only [eraseKey, List.filter_cons, ht, if_true, getKey, hne]
        exact ih

/-! ## C10: project status stays in the declared enum -/

/-- C10: refuted by the code — `stopApp` writes the status string
`"stopped"`, which is not one of the five declared `ProjectStatus` values:
stopping a running app for project `p1` leaves its record with status
`"stopped"`, outside the enum. -/
theorem C10_stopApp_writes_status_outside_enum :
    (stopApp ["p1"] [{ id := "p1", status := "deployed" }] "p1").2 =
      [{ id := "p1", status := "stopped" }] ∧
    "stopped" ∉ ProjectStatusValues := by
  refine ⟨rfl, ?_⟩
  decide

/-! ## C6: env files stripped by the fixer -/

/-- C6: refuted as stated — only the three literal paths `backend/.env`,
`backend/.env.example` and `frontend/.env.local` are deleted.  The key
`frontend/.env` ends in `.env` yet survives the fixer unchanged. -/
theorem C6_counterexample :
    getKey (validateAndFixFiles [("frontend/.env", FileContent.text "PORT=1")]
        { name := "shop" }).1 "frontend/.env" = some (FileContent.text "PORT=1") ∧
    strEndsWith ("frontend/.env") (".env") = true := by
  constructor
  · rfl
  · rfl

/-- C6 (amended): the fixer's output never contains the three env-file
entries the source deletes — `backend/.env`, `backend/.env.example` and
`frontend/.env.local`; env-suffixed paths other than these three (for
example `frontend/.env`) are not stripped. -/
theorem C6_env_entries_absent (files : List (String × FileContent)) (cfg : GenConfig) :
    getKey (validateAndFixFiles files cfg).1 "backend/.env" = none ∧
    getKey (validateAndFixFiles files cfg).1 "backend/.env.example" = none ∧
    getKey (validateAndFixFiles files cfg).1 "frontend/.env.local" = none := by
  refine ⟨?_, ?_, ?_⟩ <;>
    simp only [validateAndFixFiles]
  · rw [getKey_eraseKey_ne _ (by decide), getKey_eraseKey_ne _ (by decide),
      getKey_eraseKey_self]
  · rw [getKey_eraseKey_ne _ (by decide), getKey_eraseKey_self]
  · rw [getKey_eraseKey_self]

/-! ## C4: progress recomputation and monotonicity -/

/-- C4: refuted as stated — a phase transition from `in_progress` to
`failed` is not a transition "from completed back to an earlier state",
yet it drops the progress reading: after setup completes and backend goes
in progress the reading is 20; marking backend failed drops it to 5. -/
theorem C4_counterexample :
    (updatePhase (updatePhase (updatePhase initialSession "setup"
        PhaseStatus.in_progress 0) "setup" PhaseStatus.completed 0) "backend"
        PhaseStatus.in_progress 0).progress = 20 ∧
    ((updatePhase (updatePhase (updatePhase initialSession "setup"
        PhaseStatus.in_progress 0) "setup" PhaseStatus.completed 0) "backend"
        PhaseStatus.in_progress 0).phases.find? (fun p => p.id == "backend")).map
        (fun p => p.status) = some PhaseStatus.in_progress ∧
    (updatePhase (updatePhase (updatePhase (updatePhase initialSession "setup"
        PhaseStatus.in_progress 0) "setup" PhaseStatus.completed 0) "backend"
        PhaseStatus.in_progress 0) "backend" PhaseStatus.failed 0).progress = 5 ∧
    ¬ ((20 : Rat) ≤ 5) := by
  refine ⟨?_, by decide, ?_, by norm_num⟩
  · simp [updatePhase, initialSession, BATCH_PHASES, updateFirstPhase,
      List.find?, progressOf, phaseContribution, min_def]
    norm_num
  · simp [updatePhase, initialSession, BATCH_PHASES, updateFirstPhase,
      List.find?, progressOf, phaseContribution, min_def]
    norm_num

theorem foldr_contrib_eq_sum (l : List BatchPhase) :
    l.foldr (fun p acc => phaseContribution p + acc) 0 =
      (l.map phaseContribution).sum := by
  induction l with
  | nil => rfl
  | cons p rest ih => simp [List.map_cons, List.sum_cons, ih]

theorem progressOf_eq_sum (l : List BatchPhase) :
    progressOf l = min 100 ((l.map phaseContribution).sum) := by
  rw [progressOf, foldr_contrib_eq_sum]

theorem phaseContribution_mono {p q : BatchPhase} (hw : 0 ≤ p.weight)
    (hweq : q.weight = p.weight) (h : statusRank p.status ≤ statusRank q.status) :
    phaseContribution p ≤ phaseContribution q := by
  cases hp : p.status <;> cases hq : q.status <;>
    simp only [phaseContribution, statusRank, hp, hq, hweq] at h ⊢ <;>
    linarith

theorem sum_contrib_updateFirstPhase {phases : List BatchPhase} {phaseId : String}
    {p : BatchPhase} (hfind : phases.find? (fun q => q.id == phaseId) = some p)
    (f : BatchPhase → BatchPhase)
    (hf : phaseContribution p ≤ phaseContribution (f p)) :
    (phases.map phaseContribution).sum ≤
      ((updateFirstPhase phases phaseId f).map phaseContribution).sum := by
  induction phases with
  | nil => simp at hfind
  | cons q rest ih =>
    by_cases hq : (q.id == phaseId) = true
    · have hq' : (fun r : BatchPhase => r.id == phaseId) q = true := hq
      have hstep : List.find? (fun r : BatchPhase => r.id == phaseId) (q :: rest) =
          some q := List.find?_cons_of_pos rest hq'
      rw [hstep] at hfind
      injection hfind with hqp
      subst hqp
      simp only [updateFirstPhase, hq, if_true, List.map_cons, List.sum_cons]
      linarith
    · have hq' : ¬ ((fun r : BatchPhase => r.id == phaseId) q = true) := hq
      have hstep : List.find? (fun r : BatchPhase => r.id == phaseId) (q :: rest) =
          List.find? (fun r : BatchPhase => r.id == phaseId) rest :=
        List.find?_cons_of_neg rest hq'
      rw [hstep] at hfind
      have := ih hfind
      simp only [updateFirstPhase, hq, if_false, List.map_cons, List.sum_cons,
        Bool.false_eq_true]
      linarith

theorem sum_contrib_le_sum_weight (l : List BatchPhase)
    (hw : ∀ p ∈ l, 0 < p.weight) :
    (l.map phaseContribution).sum ≤ (l.map (fun p => p.weight)).sum ∧
    ((l.map phaseContribution).sum = (l.map (fun p => p.weight)).sum ↔
      ∀ p ∈ l, p.status = PhaseStatus.completed) := by
  induction l with
  | nil => simp
  | cons p rest ih =>
    have hpw := hw p (List.mem_cons_self _ _)
    obtain ⟨hle, hiff⟩ := ih (fun q hq => hw q (List.mem_cons_of_mem _ hq))
    have hcle : phaseContribution p ≤ p.weight := by
      cases hst : p.status <;> simp [phaseContribution, hst] <;> linarith
    have hclt : p.status ≠ PhaseStatus.completed → phaseContribution p < p.weight := by
      intro hne
      cases hst : p.status
      · simp only [phaseContribution, hst]; linarith
      · simp only [phaseContribution, hst]; linarith
      · exact absurd hst hne
      · simp only [phaseContribution, hst]; linarith
    constructor
    · simp only [List.map_cons, List.sum_cons]
      linarith
    · simp only [List.map_cons, List.sum_cons]
      constructor
      · intro heq
        have hceq : phaseContribution p = p.weight := by
          by_contra hne'
          have h1 : phaseContribution p < p.weight :=
            lt_of_le_of_ne hcle hne'
          linarith
        have hpc : p.status = PhaseStatus.completed := by
          by_contra hne
          exact absurd hceq (ne_of_lt (hclt hne))
        have hrest : (rest.map phaseContribution).sum =
            (rest.map (fun p => p.weight)).sum := by linarith
        intro q hq
        rcases List.mem_cons.mp hq with hq | hq
        · exact hq ▸ hpc
        · exact (hiff.mp hrest) q hq
      · intro hall
        have hpc : p.status = PhaseStatus.completed :=
          hall p (List.mem_cons_self _ _)
        have hrest := hiff.mpr (fun q hq => hall q (List.mem_cons_of_mem _ hq))
        have : phaseContribution p = p.weight := by
          simp [phaseContribution, hpc]
        linarith

/-- C4 (amended): on every phase status change the progress is recomputed
as `min 100` of the sum of full weights of completed phases plus half the
weight of each in-progress phase (pending and failed contributing zero);
provided no phase's contribution level drops — no transition out of
`completed` and none from `in_progress` to `pending` or `failed` (the
in_progress → failed transition, which the code performs on a thrown
phase, lowers the reading) — successive readings are non-decreasing; and
on the batch phase list the reading is exactly 100 only when every phase
is completed. -/
theorem C4_progress_recompute_and_monotonicity :
    (∀ (s : GenSession) (phaseId : String) (st : PhaseStatus) (fc : Nat),
      ((s.phases.find? (fun p => p.id == phaseId)).isSome = true) →
      (updatePhase s phaseId st fc).progress =
        min 100 (((updatePhase s phaseId st fc).phases.map phaseContribution).sum)) ∧
    (∀ (s : GenSession) (phaseId : String) (st : PhaseStatus) (fc : Nat)
      (p : BatchPhase),
      s.phases.find? (fun q => q.id == phaseId) = some p →
      statusRank p.status ≤ statusRank st →
      (∀ q ∈ s.phases, 0 ≤ q.weight) →
      s.progress = progressOf s.phases →
      s.progress ≤ (updatePhase s phaseId st fc).progress) ∧
    (∀ phases : List BatchPhase,
      phases.map (fun p => p.weight) = BATCH_PHASES.map (fun b => b.2) →
      (progressOf phases = 100 ↔ ∀ p ∈ phases, p.status = PhaseStatus.completed)) := by
  refine ⟨?_, ?_, ?_⟩
  · intro s phaseId st fc hsome
    rw [updatePhase, if_pos hsome]
    exact progressOf_eq_sum _
  · intro s phaseId st fc p hfind hrank hw hprog
    have hsome : (s.phases.find? (fun q => q.id == phaseId)).isSome = true := by
      rw [hfind]; rfl
    have hmem := List.mem_of_find?_eq_some hfind
    have hmono : phaseContribution p ≤ phaseContribution ({ p with
        status := st,
        filesGenerated := if fc > 0 then fc else p.filesGenerated }) :=
      phaseContribution_mono (hw p hmem) rfl hrank
    have hsum := sum_contrib_updateFirstPhase hfind (fun p => { p with
      status := st,
      filesGenerated := if fc > 0 then fc else p.filesGenerated }) hmono
    have hup : (updatePhase s phaseId st fc).progress =
        progressOf (updateFirstPhase s.phases phaseId (fun p => { p with
          status := st,
          filesGenerated := if fc > 0 then fc else p.filesGenerated })) := by
      rw [updatePhase, if_pos hsome]
    rw [hup, hprog, progressOf_eq_sum, progressOf_eq_sum]
    exact min_le_min (le_refl _) hsum
  · intro phases hweights
    have hwpos : ∀ p ∈ phases, 0 < p.weight := by
      intro p hp
      have : p.weight ∈ phases.map (fun p => p.weight) :=
        List.mem_map_of_mem _ hp
      rw [hweights] at this
      simp only [BATCH_PHASES, List.map_cons, List.map_nil, List.mem_cons,
        List.not_mem_nil, or_false] at this
      rcases this with h | h | h | h | h | h | h <;> rw [h] <;> norm_num
    obtain ⟨hle, hiff⟩ := sum_contrib_le_sum_weight phases hwpos
    have hw100 : (phases.map (fun p => p.weight)).sum = 100 := by
      rw [hweights]
      simp [BATCH_PHASES]
      norm_num
    rw [progressOf_eq_sum]
    constructor
    · intro h100
      apply hiff.mp
      rw [hw100]
      by_contra hne
      have hlt : (phases.map phaseContribution).sum < 100 :=
        lt_of_le_of_ne (hw100 ▸ hle) hne
      rw [min_eq_right (le_of_lt hlt)] at h100
      exact absurd h100 (ne_of_lt hlt)
    · intro hall
      have := hiff.mpr hall
      rw [this, hw100]
      simp

/-- Witness for C4's amended theorem at a concrete session: the first
update of the initial session, and the initial batch phase list. -/
theorem C4_progress_recompute_and_monotonicity_witness :
    ((updatePhase initialSession "setup" PhaseStatus.in_progress 0).progress =
      min 100 (((updatePhase initialSession "setup" PhaseStatus.in_progress 0).phases.map
        phaseContribution).sum)) ∧
    (initialSession.progress ≤
      (updatePhase initialSession "setup" PhaseStatus.in_progress 0).progress) ∧
    (progressOf initialSession.phases = 100 ↔
      ∀ p ∈ initialSession.phases, p.status = PhaseStatus.completed) := by
  refine ⟨C4_progress_recompute_and_monotonicity.1 initialSession "setup"
      PhaseStatus.in_progress 0 (by decide),
    C4_progress_recompute_and_monotonicity.2.1 initialSession "setup"
      PhaseStatus.in_progress 0
      { id := "setup", weight := 5, status := PhaseStatus.pending, filesGenerated := 0 }
      (by decide) (by decide) ?_ ?_,
    C4_progress_recompute_and_monotonicity.2.2 initialSession.phases (by decide)⟩
  · intro q hq
    simp only [initialSession, BATCH_PHASES, List.map_cons, List.map_nil,
      List.mem_cons, List.not_mem_nil, or_false] at hq
    rcases hq with h | h | h | h | h | h | h <;> rw [h] <;> norm_num
  · simp [initialSession, BATCH_PHASES, progressOf, phaseContribution, min_def]

/-! ## Orchestrator lemmas -/

theorem phaseEntry_phase (ph : String) (o : Except String (List (String × String))) :
    (phaseEntry ph o).phase = ph := by
  cases o <;> rfl

theorem keys_setKey_superset {α : Type} (m : List (String × α)) (k k' : String) (v : α)
    (h : k ∈ m.map Prod.fst) : k ∈ (setKey m k' v).map Prod.fst := by
  induction m with
  | nil => simp at h
  | cons kv rest ih =>
    simp only [List.map_cons, List.mem_cons] at h
    by_cases hk : (kv.1 == k') = true
    · rcases h with h | h
      · simp only [setKey, hk, if_true, List.map_cons, List.mem_cons]
        left
        exact (beq_iff_eq.mp hk) ▸ h
      · simp only [setKey, hk, if_true, List.map_cons, List.mem_cons]
        right
        exact h
    · simp only [setKey, hk, if_false, List.map_cons, List.mem_cons, Bool.false_eq_true]
      rcases h with h | h
      · left; exact h
      · right; exact ih h

theorem keys_setKey_self {α : Type} (m : List (String × α)) (k : String) (v : α) :
    k ∈ (setKey m k v).map Prod.fst := by
  induction m with
  | nil => simp [setKey]
  | cons kv rest ih =>
    by_cases hk : (kv.1 == k) = true
    · simp [setKey, hk]
    · simp only [setKey, hk, if_false, List.map_cons, List.mem_cons, Bool.false_eq_true]
      right
      exact ih

theorem keys_objAssign_left {α : Type} (m adds : List (String × α)) (k : String)
    (h : k ∈ m.map Prod.fst) : k ∈ (objAssign m adds).map Prod.fst := by
  induction adds generalizing m with
  | nil => exact h
  | cons kv rest ih =>
    simp only [objAssign, List.foldl_cons]
    exact ih _ (keys_setKey_superset m k kv.1 kv.2 h)

theorem keys_objAssign_right {α : Type} (m adds : List (String × α)) (kv : String × α)
    (h : kv ∈ adds) : kv.1 ∈ (objAssign m adds).map Prod.fst := by
  induction adds generalizing m with
  | nil => simp at h
  | cons kv' rest ih =>
    simp only [objAssign, List.foldl_cons]
    rcases List.mem_cons.mp h with h | h
    · subst h
      exact keys_objAssign_left _ rest kv.1 (keys_setKey_self m kv.1 kv.2)
    · exact ih _ h

theorem runPhases_foldl_snd (env : GenEnv) (phs : List String)
    (acc : List (String × String) × List PhaseResultEntry) :
    (phs.foldl (fun acc ph =>
      (objAssign acc.1 (phaseFiles (env.phaseOutcome ph)),
       acc.2 ++ [phaseEntry ph (env.phaseOutcome ph)])) acc).2 =
      acc.2 ++ phs.map (fun ph => phaseEntry ph (env.phaseOutcome ph)) := by
  induction phs generalizing acc with
  | nil => simp
  | cons ph rest ih => simp [List.foldl_cons, ih]

theorem runPhases_snd (env : GenEnv) :
    (runPhases env).2 = contentPhases.map (fun ph => phaseEntry ph (env.phaseOutcome ph)) := by
  rw [runPhases, runPhases_foldl_snd]
  simp

theorem runPhases_foldl_keys_preserved (env : GenEnv) (phs : List String)
    (acc : List (String × String) × List PhaseResultEntry) (k : String)
    (h : k ∈ acc.1.map Prod.fst) :
    k ∈ ((phs.foldl (fun acc ph =>
      (objAssign acc.1 (phaseFiles (env.phaseOutcome ph)),
       acc.2 ++ [phaseEntry ph (env.phaseOutcome ph)])) acc).1.map Prod.fst) := by
  induction phs generalizing acc with
  | nil => exact h
  | cons q qs ih =>
    simp only [List.foldl_cons]
    exact ih _ (keys_objAssign_left _ _ _ h)

theorem runPhases_foldl_keys (env : GenEnv) (phs : List String)
    (acc : List (String × String) × List PhaseResultEntry) (ph : String)
    (fs : List (String × String)) (hmem : ph ∈ phs)
    (hok : env.phaseOutcome ph = Except.ok fs) :
    ∀ kv ∈ fs, kv.1 ∈ ((phs.foldl (fun acc ph =>
      (objAssign acc.1 (phaseFiles (env.phaseOutcome ph)),
       acc.2 ++ [phaseEntry ph (env.phaseOutcome ph)])) acc).1.map Prod.fst) := by
  induction phs generalizing acc with
  | nil => simp at hmem
  | cons ph' rest ih =>
    intro kv hkv
    rcases List.mem_cons.mp hmem with h | h
    · subst h
      simp only [List.foldl_cons]
      have hstep : kv.1 ∈ ((objAssign acc.1 (phaseFiles (env.phaseOutcome ph))).map
          Prod.fst) := by
        apply keys_objAssign_right
        rw [hok]
        exact hkv
      exact runPhases_foldl_keys_preserved env rest _ kv.1 hstep
    · simp only [List.foldl_cons]
      exact ih _ h kv hkv

theorem runPhases_keys (env : GenEnv) (ph : String) (fs : List (String × String))
    (hmem : ph ∈ contentPhases) (hok : env.phaseOutcome ph = Except.ok fs) :
    ∀ kv ∈ fs, kv.1 ∈ ((runPhases env).1.map Prod.fst) := by
  rw [runPhases]
  exact runPhases_foldl_keys env contentPhases ([], []) ph fs hmem hok

theorem runPhases_foldl_files_empty (env : GenEnv) (phs : List String)
    (acc : List (String × String) × List PhaseResultEntry)
    (h : ∀ ph ∈ phs, phaseFiles (env.phaseOutcome ph) = []) :
    (phs.foldl (fun acc ph =>
      (objAssign acc.1 (phaseFiles (env.phaseOutcome ph)),
       acc.2 ++ [phaseEntry ph (env.phaseOutcome ph)])) acc).1 = acc.1 := by
  induction phs generalizing acc with
  | nil => rfl
  | cons ph rest ih =>
    simp only [List.foldl_cons]
    rw [h ph (List.mem_cons_self _ _)]
    exact ih _ (fun q hq => h q (List.mem_cons_of_mem _ hq))

theorem runPhases_files_empty (env : GenEnv)
    (h : ∀ ph ∈ contentPhases, phaseFiles (env.phaseOutcome ph) = []) :
    (runPhases env).1 = [] := by
  rw [runPhases]
  exact runPhases_foldl_files_empty env contentPhases ([], []) h

theorem runPhases_failed_length (env : GenEnv) :
    ((runPhases env).2.filter (fun r => strTruthy r.error)).length = failedPhaseCount env := by
  rw [runPhases_snd, failedPhaseCount]
  rw [← List.countP_eq_length_filter, ← List.countP_eq_length_filter, List.countP_map]
  congr 1
  funext ph
  cases h : env.phaseOutcome ph <;> simp [phaseEntry, strTruthy, h, Function.comp]

theorem runPhases_length (env : GenEnv) :
    (runPhases env).2.length = contentPhases.length := by
  rw [runPhases_snd, List.length_map]

theorem countP_lt_length_of_exists_not {α : Type} (l : List α) (p : α → Bool)
    (a : α) (ha : a ∈ l) (hp : p a = false) : l.countP p < l.length := by
  induction l with
  | nil => simp at ha
  | cons b rest ih =>
    rw [List.countP_cons, List.length_cons]
    rcases List.mem_cons.mp ha with h | h
    · subst h
      have hle : rest.countP p ≤ rest.length := List.countP_le_length _
      simp [hp]
      omega
    · cases hb : p b
      · have := ih h
        simp [hb]
        omega
      · have := ih h
        simp [hb]
        omega

theorem failedPhaseCount_le (env : GenEnv) :
    failedPhaseCount env ≤ contentPhases.length := by
  rw [failedPhaseCount, ← List.countP_eq_length_filter]
  exact List.countP_le_length _

/-! ## C1: final status determination -/

/-- C1: confirmed — for every run whose setup succeeds and whose phase
loop accumulates at least one file (so the finalizing step is reached and
its only throw, the zero-files check, does not fire), the final project
status follows exactly the claimed determination: zero truthy-error
phases and a passing smoke test give `deployed`; every phase failed gives
`failed`; every other combination (a failed smoke test with zero failed
phases included) gives `deployed`. -/
theorem C1_final_status_determination (env : GenEnv)
    (hsetup : env.setupResult = Except.ok ())
    (hfiles : (runPhases env).1 ≠ []) :
    (runBatchGeneration env).finalStatus =
      (if failedPhaseCount env = 0 ∧ (runBatchGeneration env).testSuccess = true
       then "deployed"
       else if failedPhaseCount env = contentPhases.length then "failed"
       else "deployed") := by
  have hne : (runPhases env).1.isEmpty = false := by
    cases h : (runPhases env).1
    · exact absurd h hfiles
    · rfl
  simp only [runBatchGeneration, hsetup, finalizeRun, hne, Bool.false_eq_true,
    if_false, runPhases_failed_length, runPhases_length]
  by_cases h0 : failedPhaseCount env = 0 <;>
    by_cases hall : failedPhaseCount env = contentPhases.length <;>
    cases hts : env.smokeSuccess <;>
    simp [h0, hall, hts, contentPhases]

/-- Witness for C1 at a concrete environment: backend succeeds with one
file, every other phase throws, smoke test passes. -/
theorem C1_final_status_determination_witness :
    (runBatchGeneration
      { setupResult := Except.ok (),
        phaseOutcome := fun ph =>
          if ph == "backend" then Except.ok [("backend/src/server.js", "srv")]
          else Except.error "boom",
        smokeSuccess := true }).finalStatus =
      (if failedPhaseCount
          { setupResult := Except.ok (),
            phaseOutcome := fun ph =>
              if ph == "backend" then Except.ok [("backend/src/server.js", "srv")]
              else Except.error "boom",
            smokeSuccess := true } = 0 ∧
          (runBatchGeneration
            { setupResult := Except.ok (),
              phaseOutcome := fun ph =>
                if ph == "backend" then Except.ok [("backend/src/server.js", "srv")]
                else Except.error "boom",
              smokeSuccess := true }).testSuccess = true
       then "deployed"
       else if failedPhaseCount
            { setupResult := Except.ok (),
              phaseOutcome := fun ph =>
                if ph == "backend" then Except.ok [("backend/src/server.js", "srv")]
                else Except.error "boom",
              smokeSuccess := true } = contentPhases.length then "failed"
       else "deployed") :=
  C1_final_status_determination _ rfl (by decide)

/-! ## C2: partial-failure tolerance -/

/-- C2: confirmed — when setup succeeds, exactly one content phase throws
on every attempt and every other phase returns a file map, at least one of
them nonempty, the pipeline still records a result for every phase in
order, ends in a status other than `failed`, and the saved file list
contains every successful phase's file paths. -/
theorem C2_partial_failure_tolerance (env : GenEnv) (pbad : String)
    (hsetup : env.setupResult = Except.ok ())
    (hbad : pbad ∈ contentPhases)
    (hthrow : ∃ e, env.phaseOutcome pbad = Except.error e)
    (herr : ∀ q ∈ contentPhases, q ≠ pbad → ∃ fs, env.phaseOutcome q = Except.ok fs)
    (hsome : ∃ q, q ∈ contentPhases ∧ q ≠ pbad ∧
      ∃ fs, env.phaseOutcome q = Except.ok fs ∧ fs ≠ []) :
    ((runBatchGeneration env).phaseResults.map (fun r => r.phase) = contentPhases) ∧
    (runBatchGeneration env).finalStatus ≠ "failed" ∧
    (∃ saved, (runBatchGeneration env).savedFiles = some saved ∧
      ∀ q ∈ contentPhases, ∀ fs, env.phaseOutcome q = Except.ok fs →
        ∀ kv ∈ fs, kv.1 ∈ saved) := by
  obtain ⟨qgood, hqmem, hqne, fsg, hfsg, hfsgne⟩ := hsome
  obtain ⟨kv0, hkv0⟩ := List.exists_mem_of_ne_nil fsg hfsgne
  have hkey : kv0.1 ∈ ((runPhases env).1.map Prod.fst) :=
    runPhases_keys env qgood fsg hqmem hfsg kv0 hkv0
  have hfiles : (runPhases env).1 ≠ [] := by
    intro h
    rw [h] at hkey
    simp at hkey
  have hne : (runPhases env).1.isEmpty = false := by
    cases h : (runPhases env).1
    · exact absurd h hfiles
    · rfl
  have hlt : failedPhaseCount env < contentPhases.length := by
    rw [failedPhaseCount, ← List.countP_eq_length_filter]
    refine countP_lt_length_of_exists_not _ _ qgood hqmem ?_
    rw [hfsg]
  simp only [runBatchGeneration, hsetup, finalizeRun, hne, Bool.false_eq_true,
    if_false]
  refine ⟨?_, ?_, ?_⟩
  · rw [runPhases_snd, List.map_map]
    have : ((fun r : PhaseResultEntry => r.phase) ∘
        fun ph => phaseEntry ph (env.phaseOutcome ph)) = id := by
      funext ph
      simp [Function.comp, phaseEntry_phase]
    rw [this, List.map_id]
  · rw [runPhases_failed_length, runPhases_length]
    have hlt5 : failedPhaseCount env < 5 := by
      simpa [contentPhases] using hlt
    by_cases h0 : failedPhaseCount env = 0 <;>
      cases hts : env.smokeSuccess <;>
      simp [h0, hts, contentPhases] <;>
      omega
  · refine ⟨_, rfl, ?_⟩
    intro q hq fs hfs kv hkv
    have : kv.1 ∈ ((runPhases env).1.map Prod.fst) :=
      runPhases_keys env q fs hq hfs kv hkv
    rw [savedFilesList]
    refine List.mem_append_left _ ?_
    refine List.mem_append_left _ ?_
    refine List.mem_append_left _ ?_
    exact List.mem_append_left _ this

/-- Witness for C2: backend throws, frontend returns one file, the rest
return empty maps; the smoke test passes. -/
theorem C2_partial_failure_tolerance_witness :
    ((runBatchGeneration
      { setupResult := Except.ok (),
        phaseOutcome := fun ph =>
          if ph == "backend" then Except.error "boom"
          else if ph == "frontend" then Except.ok [("frontend/app/page.tsx", "x")]
          else Except.ok [],
        smokeSuccess := true }).phaseResults.map (fun r => r.phase) = contentPhases) ∧
    (runBatchGeneration
      { setupResult := Except.ok (),
        phaseOutcome := fun ph =>
          if ph == "backend" then Except.error "boom"
          else if ph == "frontend" then Except.ok [("frontend/app/page.tsx", "x")]
          else Except.ok [],
        smokeSuccess := true }).finalStatus ≠ "failed" ∧
    (∃ saved, (runBatchGeneration
      { setupResult := Except.ok (),
        phaseOutcome := fun ph =>
          if ph == "backend" then Except.error "boom"
          else if ph == "frontend" then Except.ok [("frontend/app/page.tsx", "x")]
          else Except.ok [],
        smokeSuccess := true }).savedFiles = some saved ∧
      ∀ q ∈ contentPhases, ∀ fs,
        (fun ph => if ph == "backend" then Except.error "boom"
          else if ph == "frontend" then Except.ok [("frontend/app/page.tsx", "x")]
          else Except.ok ([] : List (String × String))) q = Except.ok fs →
        ∀ kv ∈ fs, kv.1 ∈ saved) :=
  C2_partial_failure_tolerance _ "backend" rfl (by decide) ⟨"boom", rfl⟩
    (by
      intro q hq hqne
      fin_cases hq
      · exact absurd rfl hqne
      · exact ⟨_, rfl⟩
      · exact ⟨_, rfl⟩
      · exact ⟨_, rfl⟩
      · exact ⟨_, rfl⟩)
    ⟨"frontend", by decide, by decide, [("frontend/app/page.tsx", "x")], rfl, by decide⟩

/-! ## C3: total failure -/

/-- C3: confirmed — when every content phase contributes zero files
(thrown or empty), the run ends with project status `failed` and a
recorded error message, never reaches `saveMultipleFiles` (no generated
files written), sends streaming clients an `error` event, and deletes the
session record immediately, with no grace delay. -/
theorem C3_total_failure (env : GenEnv)
    (hzero : ∀ ph ∈ contentPhases, phaseFiles (env.phaseOutcome ph) = []) :
    (runBatchGeneration env).finalStatus = "failed" ∧
    (runBatchGeneration env).finalError.isSome = true ∧
    (runBatchGeneration env).savedFiles = none ∧
    (runBatchGeneration env).errorEventSent = true ∧
    (runBatchGeneration env).removal = SessionRemoval.immediate := by
  cases hs : env.setupResult with
  | error e => simp [runBatchGeneration, hs, runCatch]
  | ok u =>
    have hempty : (runPhases env).1 = [] := runPhases_files_empty env hzero
    simp [runBatchGeneration, hs, finalizeRun, hempty, runCatch]

/-- Witness for C3: every phase throws. -/
theorem C3_total_failure_witness :
    (runBatchGeneration
      { setupResult := Except.ok (),
        phaseOutcome := fun _ => Except.error "boom",
        smokeSuccess := true }).finalStatus = "failed" ∧
    (runBatchGeneration
      { setupResult := Except.ok (),
        phaseOutcome := fun _ => Except.error "boom",
        smokeSuccess := true }).finalError.isSome = true ∧
    (runBatchGeneration
      { setupResult := Except.ok (),
        phaseOutcome := fun _ => Except.error "boom",
        smokeSuccess := true }).savedFiles = none ∧
    (runBatchGeneration
      { setupResult := Except.ok (),
        phaseOutcome := fun _ => Except.error "boom",
        smokeSuccess := true }).errorEventSent = true ∧
    (runBatchGeneration
      { setupResult := Except.ok (),
        phaseOutcome := fun _ => Except.error "boom",
        smokeSuccess := true }).removal = SessionRemoval.immediate :=
  C3_total_failure _ (by intro ph hp; rfl)

/-! ## C9: port allocator -/

theorem length_filter_le_of_imp {α : Type} (l : List α) (p q : α → Bool)
    (h : ∀ x, p x = true → q x = true) :
    (l.filter p).length ≤ (l.filter q).length := by
  induction l with
  | nil => simp
  | cons a rest ih =>
    rw [List.filter_cons, List.filter_cons]
    cases hp : p a
    · cases hq : q a <;> simp <;> omega
    · rw [h a hp]
      simp
      omega

theorem filter_ge_succ_lt {l : List Nat} {port : Nat} (hmem : port ∈ l) :
    (l.filter (fun x => port + 1 ≤ x)).length + 1 ≤
      (l.filter (fun x => port ≤ x)).length := by
  induction l with
  | nil => simp at hmem
  | cons a rest ih =>
    rw [List.filter_cons, List.filter_cons]
    rcases List.mem_cons.mp hmem with h | h
    · subst h
      have h1 : (decide (port + 1 ≤ port)) = false := by simp
      have h2 : (decide (port ≤ port)) = true := by simp
      rw [h1, h2]
      simp only [if_false, if_true, List.length_cons, Bool.false_eq_true]
      have := length_filter_le_of_imp rest (fun x => decide (port + 1 ≤ x))
        (fun x => decide (port ≤ x)) (by intro x hx; simp at hx ⊢; omega)
      omega
    · by_cases hpa : port ≤ a
      · by_cases hp1 : port + 1 ≤ a
        · have e1 : (decide (port + 1 ≤ a)) = true := by simp [hp1]
          have e2 : (decide (port ≤ a)) = true := by simp [hpa]
          rw [e1, e2]
          simp only [if_true, List.length_cons]
          exact Nat.succ_le_succ (ih h)
        · have : a = port := by omega
          subst this
          have e1 : (decide (a + 1 ≤ a)) = false := by simp
          have e2 : (decide (a ≤ a)) = true := by simp
          rw [e1, e2]
          simp only [if_false, if_true, List.length_cons, Bool.false_eq_true]
          have := length_filter_le_of_imp rest (fun x => decide (a + 1 ≤ x))
            (fun x => decide (a ≤ x)) (by intro x hx; simp at hx ⊢; omega)
          omega
      · have hp1 : ¬ (port + 1 ≤ a) := by omega
        have e1 : (decide (port + 1 ≤ a)) = false := by simp [hp1]
        have e2 : (decide (port ≤ a)) = false := by simp [hpa]
        rw [e1, e2]
        simp only [if_false, Bool.false_eq_true]
        exact ih h

theorem findNextPortGo_spec (used : List Nat) :
    ∀ (fuel port : Nat), (used.filter (fun x => port ≤ x)).length < fuel →
      findNextPortGo used fuel port ∉ used ∧ port ≤ findNextPortGo used fuel port := by
  intro fuel
  induction fuel with
  | zero => intro port h; omega
  | succ fuel ih =>
    intro port h
    by_cases hmem : port ∈ used
    · have hstep := filter_ge_succ_lt hmem
      have hlt : (used.filter (fun x => port + 1 ≤ x)).length < fuel := by omega
      obtain ⟨h1, h2⟩ := ih (port + 1) hlt
      rw [findNextPortGo, if_pos hmem]
      exact ⟨h1, le_trans (Nat.le_succ _) h2⟩
    · rw [findNextPortGo, if_neg hmem]
      exact ⟨hmem, le_refl _⟩

theorem findNextPort_spec (used : List Nat) (startFrom : Nat) :
    findNextPort used startFrom ∉ used ∧ startFrom ≤ findNextPort used startFrom := by
  apply findNextPortGo_spec
  have := List.length_filter_le (fun x => decide (startFrom ≤ x)) used
  omega

theorem mem_getUsedPorts_platform (s : List PortAssignment) {p : Nat}
    (hp : p ∈ PLATFORM_PORTS) : p ∈ getUsedPorts s := by
  rw [getUsedPorts]
  exact List.mem_dedup.mpr (List.mem_append_left _ hp)

theorem mem_getUsedPorts_frontend (s : List PortAssignment) {a : PortAssignment}
    (ha : a ∈ s) : a.frontend ∈ getUsedPorts s := by
  rw [getUsedPorts]
  refine List.mem_dedup.mpr (List.mem_append_right _ ?_)
  refine List.mem_flatMap.mpr ⟨a, ha, ?_⟩
  simp

theorem mem_getUsedPorts_backend (s : List PortAssignment) {a : PortAssignment}
    (ha : a ∈ s) : a.backend ∈ getUsedPorts s := by
  rw [getUsedPorts]
  refine List.mem_dedup.mpr (List.mem_append_right _ ?_)
  refine List.mem_flatMap.mpr ⟨a, ha, ?_⟩
  simp

theorem portsDisjoint_symm : Symmetric portsDisjoint := by
  intro a b h
  obtain ⟨h1, h2, h3, h4⟩ := h
  exact ⟨h1.symm, h3.symm, h2.symm, h4.symm⟩

theorem reachable_invariant (s : List PortAssignment) (h : PortStoreReachable s) :
    (∀ a ∈ s, a.frontend ∉ PLATFORM_PORTS ∧ a.backend ∉ PLATFORM_PORTS ∧
      a.frontend ≠ a.backend) ∧ List.Pairwise portsDisjoint s := by
  induction h with
  | init => exact ⟨by simp, List.Pairwise.nil⟩
  | assignStep s pid pname hreach ih =>
    obtain ⟨hmem, hpw⟩ := ih
    cases hfind : s.find? (fun a => a.projectId == pid) with
    | some ex =>
      simp only [assignPorts, hfind]
      exact ⟨hmem, hpw⟩
    | none =>
      simp only [assignPorts, hfind]
      have hf := findNextPort_spec (getUsedPorts s) STARTING_PORT
      have hb := findNextPort_spec (getUsedPorts s)
        (findNextPort (getUsedPorts s) STARTING_PORT + 1)
      constructor
      · intro a ha
        rcases List.mem_append.mp ha with ha | ha
        · exact hmem a ha
        · simp only [List.mem_singleton] at ha
          subst ha
          refine ⟨?_, ?_, ?_⟩
          · intro hplat
            exact hf.1 (mem_getUsedPorts_platform s hplat)
          · intro hplat
            exact hb.1 (mem_getUsedPorts_platform s hplat)
          · simp only []
            omega
      · rw [List.pairwise_append]
        refine ⟨hpw, List.pairwise_singleton _ _, ?_⟩
        intro a ha c hc
        simp only [List.mem_singleton] at hc
        subst hc
        have hfr : a.frontend ∈ getUsedPorts s := mem_getUsedPorts_frontend s ha
        have hbk : a.backend ∈ getUsedPorts s := mem_getUsedPorts_backend s ha
        refine ⟨?_, ?_, ?_, ?_⟩
        · intro heq
          have h' := heq ▸ hfr
          exact hf.1 h'
        · intro heq
          have h' := heq ▸ hfr
          exact hb.1 h'
        · intro heq
          have h' := heq ▸ hbk
          exact hf.1 h'
        · intro heq
          have h' := heq ▸ hbk
          exact hb.1 h' 
  | releaseStep s pid hreach ih =>
    obtain ⟨hmem, hpw⟩ := ih
    constructor
    · intro a ha
      exact hmem a (List.mem_of_mem_filter ha)
    · exact hpw.sublist (List.filter_sublist _)

/-- C9: confirmed — on every store reachable through the allocator's
operations, assignments of distinct projects use pairwise disjoint port
pairs and never a reserved platform port; a fresh assignment's frontend
port is the scan from the fixed starting port 4000 and its backend port
the scan from frontendPort + 1. -/
theorem C9_port_uniqueness :
    (∀ s, PortStoreReachable s → ∀ a ∈ s, ∀ b ∈ s, a.projectId ≠ b.projectId →
      portsDisjoint a b) ∧
    (∀ s, PortStoreReachable s → ∀ a ∈ s,
      a.frontend ∉ PLATFORM_PORTS ∧ a.backend ∉ PLATFORM_PORTS) ∧
    (∀ (s : List PortAssignment) (projectId projectName : String),
      s.find? (fun a => a.projectId == projectId) = none →
      (assignPorts s projectId projectName).2.frontend =
        findNextPort (getUsedPorts s) STARTING_PORT ∧
      (assignPorts s projectId projectName).2.backend =
        findNextPort (getUsedPorts s)
          ((assignPorts s projectId projectName).2.frontend + 1)) := by
  refine ⟨?_, ?_, ?_⟩
  · intro s hreach a ha b hb hpid
    have hpw := (reachable_invariant s hreach).2
    have hne : a ≠ b := by
      intro heq
      exact hpid (heq ▸ rfl)
    exact hpw.forall portsDisjoint_symm ha hb hne
  · intro s hreach a ha
    have := (reachable_invariant s hreach).1 a ha
    exact ⟨this.1, this.2.1⟩
  · intro s projectId projectName hfind
    simp [assignPorts, hfind]

/-- Witness for C9 at the store holding two concrete assignments made
from the empty store. -/
theorem C9_port_uniqueness_witness :
    portsDisjoint
      { projectId := "p1", projectName := "one", frontend := 4000, backend := 4001 }
      { projectId := "p2", projectName := "two", frontend := 4002, backend := 4003 } ∧
    (({ projectId := "p1", projectName := "one", frontend := 4000, backend := 4001 } : PortAssignment).frontend ∉ PLATFORM_PORTS ∧
      ({ projectId := "p1", projectName := "one", frontend := 4000, backend := 4001 } : PortAssignment).backend ∉ PLATFORM_PORTS) ∧
    ((assignPorts [] "p1" "one").2.frontend =
        findNextPort (getUsedPorts []) STARTING_PORT ∧
      (assignPorts [] "p1" "one").2.backend =
        findNextPort (getUsedPorts []) ((assignPorts [] "p1" "one").2.frontend + 1)) := by
  refine ⟨?_, ?_, ?_⟩
  · exact C9_port_uniqueness.1
      (assignPorts (assignPorts [] "p1" "one").1 "p2" "two").1
      (PortStoreReachable.assignStep _ "p2" "two"
        (PortStoreReachable.assignStep _ "p1" "one" PortStoreReachable.init))
      _ (by decide) _ (by decide) (by decide)
  · exact C9_port_uniqueness.2.1
      (assignPorts [] "p1" "one").1
      (PortStoreReachable.assignStep _ "p1" "one" PortStoreReachable.init)
      _ (by decide)
  · exact C9_port_uniqueness.2.2 [] "p1" "one" rfl

/-! ## More association-list lemmas (shared by the fixer claims) -/

theorem getKey_setKey_self {α : Type} (m : List (String × α)) (k : String) (v : α) :
    getKey (setKey m k v) k = some v := by
  induction m with
  | nil => simp [setKey, getKey]
  | cons kv rest ih =>
    by_cases hk : (kv.1 == k) = true
    · simp [setKey, hk, getKey]
    · simp only [setKey, hk, if_false, getKey, Bool.false_eq_true]
      exact ih

theorem getKey_setKey_ne {α : Type} (m : List (String × α)) {k k' : String} (v : α)
    (h : k ≠ k') : getKey (setKey m k' v) k = getKey m k := by
  induction m with
  | nil =>
    have : (k' == k) = false := beq_eq_false_iff_ne.mpr (Ne.symm h)
    simp [setKey, getKey, this]
  | cons kv rest ih =>
    by_cases hk : (kv.1 == k') = true
    · have hne : (k' == k) = false := beq_eq_false_iff_ne.mpr (Ne.symm h)
      have hkvne : (kv.1 == k) = false := by
        refine beq_eq_false_iff_ne.mpr ?_
        intro hkk
        exact (Ne.symm h) ((beq_iff_eq.mp hk) ▸ hkk)
      simp [setKey, hk, getKey, hne, hkvne]
    · simp only [setKey, hk, if_false, getKey, Bool.false_eq_true]
      by_cases hkk : (kv.1 == k) = true
      · simp [hkk]
      · simp only [hkk, if_false, Bool.false_eq_true]
        exact ih

theorem getKey_eq_none_iff {α : Type} (m : List (String × α)) (k : String) :
    getKey m k = none ↔ ∀ kv ∈ m, kv.1 ≠ k := by
  induction m with
  | nil => simp [getKey]
  | cons kv rest ih =>
    by_cases hk : (kv.1 == k) = true
    · simp [getKey, hk, beq_iff_eq.mp hk]
    · have hk' : kv.1 ≠ k := by simpa using hk
      simp [getKey, hk, ih, hk']

theorem mem_of_mem_eraseKey {α : Type} {m : List (String × α)} {k : String}
    {kv : String × α} (h : kv ∈ eraseKey m k) : kv ∈ m :=
  List.mem_of_mem_filter h

/-! ## The bcrypt replacement removes every matching-quote call -/

theorem containsSeq_true_iff (pat l : List Char) :
    containsSeq pat l = true ↔ ∃ n, pat <+: l.drop n := by
  induction l with
  | nil =>
    simp only [containsSeq, List.isEmpty_iff]
    constructor
    · intro h
      exact ⟨0, by simp [h]⟩
    · rintro ⟨n, hn⟩
      simpa using List.prefix_nil.mp (by simpa using hn)
  | cons c rest ih =>
    simp only [containsSeq, Bool.or_eq_true, List.isPrefixOf_iff_prefix, ih]
    constructor
    · rintro (h | ⟨n, hn⟩)
      · exact ⟨0, by simpa using h⟩
      · exact ⟨n + 1, by simpa using hn⟩
    · rintro ⟨n, hn⟩
      cases n with
      | zero => exact Or.inl (by simpa using hn)
      | succ n => exact Or.inr ⟨n, by simpa using hn⟩

theorem prefix_append_split {α : Type} {p u v : List α} (h : p <+: u ++ v) :
    p <+: u ∨ (u <+: p ∧ p.drop u.length <+: v) := by
  obtain ⟨w, hw⟩ := h
  by_cases hl : p.length ≤ u.length
  · left
    have h2 : p = (u ++ v).take p.length := List.prefix_iff_eq_take.mp ⟨w, hw⟩
    rw [List.take_append_eq_append_take, Nat.sub_eq_zero_of_le hl, List.take_zero,
      List.append_nil] at h2
    exact h2 ▸ List.take_prefix _ _
  · have hul : u.length ≤ p.length := Nat.le_of_lt (Nat.lt_of_not_le hl)
    right
    have htk : p.take u.length = u := by
      have h1 := congrArg (List.take u.length) hw
      rw [List.take_append_eq_append_take, Nat.sub_eq_zero_of_le hul, List.take_zero,
        List.append_nil, List.take_left] at h1
      exact h1
    have htd : u ++ p.drop u.length = p := by
      have h3 := List.take_append_drop u.length p
      rw [htk] at h3
      exact h3
    refine ⟨⟨p.drop u.length, htd⟩, ?_⟩
    have h1 := congrArg (List.drop u.length) hw
    rw [List.drop_append_eq_append_drop, Nat.sub_eq_zero_of_le hul, List.drop_zero,
      List.drop_left] at h1
    exact ⟨w, h1⟩

theorem not_prefix_of_isPrefixOf_false {l₁ l₂ : List Char}
    (h : l₁.isPrefixOf l₂ = false) : ¬ (l₁ <+: l₂) := by
  intro hp
  rw [← List.isPrefixOf_iff_prefix, h] at hp
  exact Bool.false_ne_true hp

theorem bcrypt_decide_repl_SS :
    ∀ n, n < 19 → bcryptPatSS.isPrefixOf (bcryptReplacement.drop n) = false := by decide

theorem bcrypt_decide_repl_DD :
    ∀ n, n < 19 → bcryptPatDD.isPrefixOf (bcryptReplacement.drop n) = false := by decide

theorem bcrypt_decide_suffix_SS :
    ∀ n, n < 19 → (bcryptReplacement.drop n).isPrefixOf bcryptPatSS = false := by decide

theorem bcrypt_decide_suffix_DD :
    ∀ n, n < 19 → (bcryptReplacement.drop n).isPrefixOf bcryptPatDD = false := by decide

theorem bcrypt_decide_tail_repl_SS :
    ∀ t, t < 17 → 0 < t → (bcryptPatSS.drop t).isPrefixOf bcryptReplacement = false := by
  decide

theorem bcrypt_decide_tail_repl_DD :
    ∀ t, t < 17 → 0 < t → (bcryptPatDD.drop t).isPrefixOf bcryptReplacement = false := by
  decide

/-- Proper tails of a matched pattern pass through the replacement
unchanged: if a tail of the pattern prefixes the rewritten text it already
prefixed the original. -/
theorem bcrypt_tail_prefix_lift (pat : List Char)
    (hpat : pat = bcryptPatSS ∨ pat = bcryptPatDD) :
    ∀ (u : List Char) (t : Nat), 1 ≤ t → t ≤ 16 →
      pat.drop t <+: replaceBcryptChars u → pat.drop t <+: u := by
  have h17 : pat.length = 17 := by rcases hpat with h | h <;> subst h <;> decide
  intro u
  induction u with
  | nil =>
    intro t h1 h16 hp
    simpa [replaceBcryptChars] using hp
  | cons c rest ih =>
    intro t h1 h16 hp
    by_cases hb : isBcryptPat (c :: rest) = true
    · exfalso
      have heq : replaceBcryptChars (c :: rest) =
          bcryptReplacement ++ replaceBcryptChars (rest.drop 16) := by
        simp [replaceBcryptChars, hb]
      rw [heq] at hp
      rcases prefix_append_split hp with hA | ⟨hB, _⟩
      · have hfalse : (pat.drop t).isPrefixOf bcryptReplacement = false := by
          rcases hpat with h | h <;> subst h
          · exact bcrypt_decide_tail_repl_SS t (by omega) (by omega)
          · exact bcrypt_decide_tail_repl_DD t (by omega) (by omega)
        exact not_prefix_of_isPrefixOf_false hfalse hA
      · have hlen := hB.length_le
        have h19 : bcryptReplacement.length = 19 := by decide
        rw [h19, List.length_drop, h17] at hlen
        omega
    · have heq : replaceBcryptChars (c :: rest) = c :: replaceBcryptChars rest := by
        simp [replaceBcryptChars, hb]
      rw [heq] at hp
      have ht17 : t < pat.length := by omega
      have hdt : pat.drop t = pat[t] :: pat.drop (t + 1) := List.drop_eq_getElem_cons ht17
      rw [hdt] at hp ⊢
      rcases List.cons_prefix_cons.mp hp with ⟨hc, htail⟩
      by_cases ht : t = 16
      · subst ht
        have hnil : pat.drop 17 = [] := List.drop_eq_nil_of_le (by omega)
        refine List.cons_prefix_cons.mpr ⟨hc, ?_⟩
        rw [hnil]
        exact List.nil_prefix
      · exact List.cons_prefix_cons.mpr ⟨hc, ih (t + 1) (by omega) (by omega) htail⟩

/-- The rewritten text contains no matching-quote `require('bcrypt')`
anywhere: the replacement never recreates a match, across boundaries
included. -/
theorem bcrypt_no_match_in_replaced (pat : List Char)
    (hpat : pat = bcryptPatSS ∨ pat = bcryptPatDD) :
    ∀ (len : Nat) (s : List Char), s.length ≤ len → ∀ n,
      ¬ pat <+: (replaceBcryptChars s).drop n := by
  have h17 : pat.length = 17 := by rcases hpat with h | h <;> subst h <;> decide
  intro len
  induction len with
  | zero =>
    intro s hs n hp
    have hsnil : s = [] := List.eq_nil_of_length_eq_zero (Nat.le_zero.mp hs)
    subst hsnil
    have hpe : pat = [] := by simpa [replaceBcryptChars] using hp
    rw [hpe] at h17
    simp at h17
  | succ len ih =>
    intro s hs n hp
    cases s with
    | nil =>
      have hpe : pat = [] := by simpa [replaceBcryptChars] using hp
      rw [hpe] at h17
      simp at h17
    | cons c rest =>
      by_cases hb : isBcryptPat (c :: rest) = true
      · have heq : replaceBcryptChars (c :: rest) =
            bcryptReplacement ++ replaceBcryptChars (rest.drop 16) := by
          simp [replaceBcryptChars, hb]
        rw [heq, List.drop_append_eq_append_drop] at hp
        have h19 : bcryptReplacement.length = 19 := by decide
        by_cases hn : 19 ≤ n
        · have hnil : bcryptReplacement.drop n = [] :=
            List.drop_eq_nil_of_le (by omega)
          rw [hnil, List.nil_append] at hp
          have hrlen : (rest.drop 16).length ≤ len := by
            have h0 : rest.length + 1 ≤ len + 1 := by simpa using hs
            have h2 : (rest.drop 16).length = rest.length - 16 := List.length_drop _ _
            omega
          exact ih (rest.drop 16) hrlen (n - 19) hp
        · rcases prefix_append_split hp with hA | ⟨hB, _⟩
          · have hfalse : pat.isPrefixOf (bcryptReplacement.drop n) = false := by
              rcases hpat with h | h <;> subst h
              · exact bcrypt_decide_repl_SS n (by omega)
              · exact bcrypt_decide_repl_DD n (by omega)
            exact not_prefix_of_isPrefixOf_false hfalse hA
          · have hfalse : (bcryptReplacement.drop n).isPrefixOf pat = false := by
              rcases hpat with h | h <;> subst h
              · exact bcrypt_decide_suffix_SS n (by omega)
              · exact bcrypt_decide_suffix_DD n (by omega)
            exact not_prefix_of_isPrefixOf_false hfalse hB
      · have heq : replaceBcryptChars (c :: rest) = c :: replaceBcryptChars rest := by
          simp [replaceBcryptChars, hb]
        rw [heq] at hp
        have hrl : rest.length ≤ len := by
          have h0 : rest.length + 1 ≤ len + 1 := by simpa using hs
          omega
        cases n with
        | succ n =>
          rw [List.drop_succ_cons] at hp
          exact ih rest hrl n hp
        | zero =>
          rw [List.drop_zero] at hp
          have hne : pat ≠ [] := by rcases hpat with h | h <;> subst h <;> decide
          rcases List.prefix_cons_iff.mp hp with hnilp | ⟨tl, hpeq, htl⟩
          · exact hne hnilp
          · have htl1 : pat.drop 1 <+: replaceBcryptChars rest := by
              rw [hpeq]
              simpa using htl
            have h2 := bcrypt_tail_prefix_lift pat hpat rest 1 (le_refl 1) (by omega) htl1
            have htl' : tl <+: rest := by
              rw [hpeq] at h2
              simpa using h2
            have hpre : pat <+: c :: rest := by
              rw [hpeq]
              exact List.cons_prefix_cons.mpr ⟨rfl, htl'⟩
            have hb1 : pat.isPrefixOf (c :: rest) = true :=
              List.isPrefixOf_iff_prefix.mpr hpre
            have hbt : isBcryptPat (c :: rest) = true := by
              rcases hpat with h | h <;> subst h <;> simp [isBcryptPat, hb1]
            exact hb hbt

/-- Wrapper: the rewritten text fails both `includes` checks. -/
theorem bcrypt_replaced_clean (s : List Char) :
    containsSeq bcryptPatSS (replaceBcryptChars s) = false ∧
    containsSeq bcryptPatDD (replaceBcryptChars s) = false := by
  constructor
  · rw [Bool.eq_false_iff]
    intro h
    rcases (containsSeq_true_iff _ _).mp h with ⟨n, hn⟩
    exact bcrypt_no_match_in_replaced bcryptPatSS (Or.inl rfl) s.length s (le_refl _) n hn
  · rw [Bool.eq_false_iff]
    intro h
    rcases (containsSeq_true_iff _ _).mp h with ⟨n, hn⟩
    exact bcrypt_no_match_in_replaced bcryptPatDD (Or.inr rfl) s.length s (le_refl _) n hn

/-- After one pass of the per-file bcrypt fix, the content passes neither
`includes` check, whichever branch was taken. -/
theorem fixBcryptInFile_clean (c : FileContent) :
    contentIncludes (fixBcryptInFile c).1 ("require('bcrypt')") = false ∧
    contentIncludes (fixBcryptInFile c).1 ("require(\"bcrypt\")") = false := by
  by_cases h : (contentIncludes c ("require('bcrypt')") ||
      contentIncludes c ("require(\"bcrypt\")")) = true
  · cases c with
    | text s =>
      have h1 : (fixBcryptInFile (FileContent.text s)).1 =
          FileContent.text (String.mk (replaceBcryptChars s.data)) := by
        simp [fixBcryptInFile, h]
      rw [h1]
      have hk := bcrypt_replaced_clean s.data
      constructor
      · simpa [contentIncludes, stringIncludes, bcryptPatSS] using hk.1
      · simpa [contentIncludes, stringIncludes, bcryptPatDD] using hk.2
    | jsonVal j =>
      simp [contentIncludes] at h
  · have h' : (contentIncludes c ("require('bcrypt')") ||
        contentIncludes c ("require(\"bcrypt\")")) = false := eq_false_of_ne_true h
    rcases Bool.or_eq_false_iff.mp h' with ⟨hss, hdd⟩
    have hout : (fixBcryptInFile c).1 = c := by
      simp [fixBcryptInFile, h']
    rw [hout]
    exact ⟨hss, hdd⟩

/-- Every entry of the bcrypt pass's output comes from an input entry at
the same path, rewritten when the path is a backend `.js` file. -/
theorem mem_applyBcryptFixes {m : List (String × FileContent)} {p : String}
    {c' : FileContent} (h : (p, c') ∈ (applyBcryptFixes m).1) :
    ∃ c, (p, c) ∈ m ∧
      c' = (if strStartsWith p ("backend/") && strEndsWith p (".js") then
        (fixBcryptInFile c).1 else c) := by
  induction m with
  | nil => simp [applyBcryptFixes] at h
  | cons kv rest ih =>
    obtain ⟨path, c⟩ := kv
    by_cases hc : (strStartsWith path ("backend/") && strEndsWith path (".js")) = true
    · rw [show applyBcryptFixes ((path, c) :: rest) =
          ((path, (fixBcryptInFile c).1) :: (applyBcryptFixes rest).1,
           (if (fixBcryptInFile c).2 then ["Fixed bcrypt -> bcryptjs in " ++ path]
            else []) ++ (applyBcryptFixes rest).2) from by
        simp [applyBcryptFixes, hc]] at h
      rcases List.mem_cons.mp h with he | hr
      · rcases Prod.mk.injEq .. ▸ he with ⟨hp, hcc⟩
        subst hp
        exact ⟨c, List.mem_cons_self _ _, by rw [if_pos hc]; exact hcc⟩
      · rcases ih hr with ⟨c0, hm, hval⟩
        exact ⟨c0, List.mem_cons_of_mem _ hm, hval⟩
    · rw [show applyBcryptFixes ((path, c) :: rest) =
          ((path, c) :: (applyBcryptFixes rest).1, (applyBcryptFixes rest).2) from by
        simp [applyBcryptFixes, hc]] at h
      rcases List.mem_cons.mp h with he | hr
      · rcases Prod.mk.injEq .. ▸ he with ⟨hp, hcc⟩
        subst hp
        refine ⟨c, List.mem_cons_self _ _, ?_⟩
        rw [if_neg ?_]
        · exact hcc
        · simpa using hc
      · rcases ih hr with ⟨c0, hm, hval⟩
        exact ⟨c0, List.mem_cons_of_mem _ hm, hval⟩

/-- `validateAndFixFiles` in terms of its stages (definitional). -/
theorem validateAndFixFiles_eq (files : List (String × FileContent)) (cfg : GenConfig) :
    validateAndFixFiles files cfg =
      (eraseKey (eraseKey (eraseKey (applyBcryptFixes (manifestStage files cfg).1).1
          "backend/.env") "backend/.env.example") "frontend/.env.local",
       (manifestStage files cfg).2 ++ (applyBcryptFixes (manifestStage files cfg).1).2 ++
         validateAndFixImports (applyBcryptFixes (manifestStage files cfg).1).1) := rfl

/-- Property reads across the bcrypt pass: the value at `k` is the input
value, rewritten when `k` is a backend `.js` path. -/
theorem getKey_applyBcryptFixes (m : List (String × FileContent)) (k : String) :
    getKey (applyBcryptFixes m).1 k =
      (getKey m k).map (fun c =>
        if strStartsWith k ("backend/") && strEndsWith k (".js") then
          (fixBcryptInFile c).1 else c) := by
  induction m with
  | nil => simp [applyBcryptFixes, getKey]
  | cons kv rest ih =>
    obtain ⟨path, c⟩ := kv
    by_cases hc : (strStartsWith path ("backend/") && strEndsWith path (".js")) = true
    · by_cases hk : (path == k) = true
      · have hpk := beq_iff_eq.mp hk
        subst hpk
        simp [applyBcryptFixes, hc, getKey]
      · simp [applyBcryptFixes, hc, getKey, hk, ih]
    · by_cases hk : (path == k) = true
      · have hpk := beq_iff_eq.mp hk
        subst hpk
        have hc' : (strStartsWith path ("backend/") && strEndsWith path (".js")) = false :=
          eq_false_of_ne_true hc
        simp [applyBcryptFixes, hc', getKey, hc]
      · simp [applyBcryptFixes, hc, getKey, hk, ih]

/-- The frontend-manifest stage never touches the backend manifest key. -/
theorem getKey_manifestStage_backend (files : List (String × FileContent))
    (cfg : GenConfig) :
    getKey (manifestStage files cfg).1 "backend/package.json" =
      getKey (backendStage files cfg).1 "backend/package.json" := by
  rw [manifestStage]
  cases hf : getKey (backendStage files cfg).1 "frontend/package.json" with
  | none => rfl
  | some c =>
    by_cases ht : contentTruthy c = true
    · simp only [ht, if_true]
      exact getKey_setKey_ne _ _ (by decide)
    · simp [ht]

/-! ## Serialization normalization: helper lemmas -/

theorem jsonNorm_jobj (f : List (String × Json)) :
    jsonNorm (Json.jobj f) = Json.jobj (jsonNormFields f) := by
  simp [jsonNorm]

theorem jsonNormFields_nil : jsonNormFields [] = [] := by
  simp [jsonNormFields]

theorem jsonNormFields_cons (kv : String × Json) (rest : List (String × Json)) :
    jsonNormFields (kv :: rest) = (kv.1, jsonNorm kv.2) :: jsonNormFields rest := by
  simp [jsonNormFields]

theorem jsonNorm_jstr (s : String) : jsonNorm (Json.jstr s) = Json.jstr s := by
  simp [jsonNorm]

theorem jsTruthy_jsonNorm (v : Json) :
    jsTruthy (some (jsonNorm v)) = jsTruthy (some v) := by
  cases v <;> simp [jsonNorm, jsTruthy]

theorem getKey_jsonNormFields (f : List (String × Json)) (k : String) :
    getKey (jsonNormFields f) k = (getKey f k).map jsonNorm := by
  induction f with
  | nil => simp [jsonNormFields_nil, getKey]
  | cons kv rest ih =>
    rw [jsonNormFields_cons]
    by_cases hk : (kv.1 == k) = true
    · simp [getKey, hk]
    · simp [getKey, hk, ih]

theorem normFields_fixed_value :
    ∀ (f : List (String × Json)), jsonNormFields f = f →
      ∀ (k : String) (v : Json), getKey f k = some v → jsonNorm v = v := by
  intro f
  induction f with
  | nil =>
    intro _ k v hget
    simp [getKey] at hget
  | cons kv rest ih =>
    intro hf k v hget
    rw [jsonNormFields_cons] at hf
    injection hf with h1 h2
    by_cases hk : (kv.1 == k) = true
    · have hv : kv.2 = v := by simpa [getKey, hk] using hget
      rw [← hv]
      exact congrArg Prod.snd h1
    · exact ih h2 k v (by simpa [getKey, hk] using hget)

theorem normFields_fixed_setKey :
    ∀ (f : List (String × Json)), jsonNormFields f = f →
      ∀ (k : String) (v : Json), jsonNorm v = v →
        jsonNormFields (setKey f k v) = setKey f k v := by
  intro f
  induction f with
  | nil =>
    intro _ k v hv
    show jsonNormFields [(k, v)] = [(k, v)]
    rw [jsonNormFields_cons, jsonNormFields_nil]
    simp [hv]
  | cons kv rest ih =>
    intro hf k v hv
    rw [jsonNormFields_cons] at hf
    injection hf with h1 h2
    by_cases hk : (kv.1 == k) = true
    · simp [setKey, hk, jsonNormFields_cons, hv, h2]
    · simp [setKey, hk, jsonNormFields_cons, h1, ih h2 k v hv]

theorem normFields_fixed_eraseKey :
    ∀ (f : List (String × Json)), jsonNormFields f = f →
      ∀ (k : String), jsonNormFields (eraseKey f k) = eraseKey f k := by
  intro f
  induction f with
  | nil =>
    intro _ k
    simp [eraseKey, jsonNormFields_nil]
  | cons kv rest ih =>
    intro hf k
    rw [jsonNormFields_cons] at hf
    injection hf with h1 h2
    by_cases hk : (kv.1 != k) = true
    · simp only [eraseKey, List.filter_cons, hk, if_true]
      rw [jsonNormFields_cons, h1]
      have := ih h2 k
      simp only [eraseKey] at this
      rw [this]
    · simp only [eraseKey, List.filter_cons, hk, Bool.false_eq_true, if_false]
      have := ih h2 k
      simp only [eraseKey] at this
      rw [this]

theorem normFixed_jobj_fields {f : List (String × Json)}
    (h : jsonNorm (Json.jobj f) = Json.jobj f) : jsonNormFields f = f := by
  rw [jsonNorm_jobj] at h
  exact Json.jobj.inj h

theorem normFixed_jobj_of_fields {f : List (String × Json)}
    (h : jsonNormFields f = f) : jsonNorm (Json.jobj f) = Json.jobj f := by
  rw [jsonNorm_jobj, h]

/-! ## Step lemmas for the manifest repairs -/

theorem andThenFix_ok {r : FixStep} {f : Json → List String → FixStep}
    {out : Json × List String} (h : andThenFix r f = Except.ok out) :
    ∃ p fx, r = Except.ok (p, fx) ∧ f p fx = Except.ok out := by
  cases r with
  | error fs => simp [andThenFix] at h
  | ok pr =>
    obtain ⟨p, fx⟩ := pr
    exact ⟨p, fx, rfl, h⟩

theorem ensureTopField_ok {pkg : Json} {fixes : List String} {k : String} {v : Json}
    {msg : Option String} {pkg' : Json} {fixes' : List String}
    (f : List (String × Json)) (hpkg : pkg = Json.jobj f)
    (h : ensureTopField pkg fixes k v msg = Except.ok (pkg', fixes')) :
    ((jsTruthy (getKey f k) = true ∧ pkg' = pkg ∧ fixes' = fixes) ∨
     (jsTruthy (getKey f k) = false ∧ pkg' = Json.jobj (setKey f k v) ∧
      fixes' = fixes ++ msg.toList)) := by
  subst hpkg
  by_cases ht : jsTruthy (getKey f k) = true
  · simp only [ensureTopField, jsRead, ht, if_true] at h
    rcases Except.ok.inj h with h'
    exact Or.inl ⟨ht, congrArg Prod.fst h'.symm, congrArg Prod.snd h'.symm⟩
  · have ht' := eq_false_of_ne_true ht
    simp only [ensureTopField, jsRead, ht', Bool.false_eq_true, if_false, jsWrite] at h
    rcases Except.ok.inj h with h'
    refine Or.inr ⟨ht', congrArg Prod.fst h'.symm,
      (congrArg Prod.snd h'.symm).trans ?_⟩
    cases msg <;> rfl

theorem ensureTopField_ok_summary {pkg : Json} {fixes : List String} {k : String}
    {v : Json} {msg : Option String} {pkg' : Json} {fixes' : List String}
    (f : List (String × Json)) (hpkg : pkg = Json.jobj f)
    (h : ensureTopField pkg fixes k v msg = Except.ok (pkg', fixes'))
    (hv : jsTruthy (some v) = true) :
    ∃ f', pkg' = Json.jobj f' ∧ jsTruthy (getKey f' k) = true ∧
      (∀ k2, k2 ≠ k → getKey f' k2 = getKey f k2) ∧
      (getKey f' k = getKey f k ∨ getKey f' k = some v) ∧
      (jsonNormFields f = f → jsonNorm v = v → jsonNormFields f' = f') := by
  rcases ensureTopField_ok f hpkg h with ⟨ht, hp, -⟩ | ⟨-, hp, -⟩
  · exact ⟨f, by rw [hp, hpkg], ht, fun k2 _ => rfl, Or.inl rfl, fun hf _ => hf⟩
  · refine ⟨setKey f k v, hp, ?_, ?_, ?_, ?_⟩
    · rw [getKey_setKey_self]
      exact hv
    · intro k2 hk2
      exact getKey_setKey_ne _ _ hk2
    · exact Or.inr (getKey_setKey_self _ _ _)
    · intro hf hvn
      exact normFields_fixed_setKey f hf k v hvn

theorem ensureSubField_ok {pkg : Json} {fixes : List String} {parent child : String}
    {v : Json} {msg : String} {pkg' : Json} {fixes' : List String}
    (f : List (String × Json)) (hpkg : pkg = Json.jobj f)
    (h : ensureSubField pkg fixes parent child v msg = Except.ok (pkg', fixes')) :
    ∃ pv, getKey f parent = some pv ∧
      ((∃ pf, pv = Json.jobj pf ∧
         ((jsTruthy (getKey pf child) = true ∧ pkg' = pkg ∧ fixes' = fixes) ∨
          (jsTruthy (getKey pf child) = false ∧
           pkg' = Json.jobj (setKey f parent (Json.jobj (setKey pf child v))) ∧
           fixes' = fixes ++ [msg]))) ∨
       (∃ elems props, pv = Json.jarr elems props ∧
         ((jsTruthy (getKey props child) = true ∧ pkg' = pkg ∧ fixes' = fixes) ∨
          (jsTruthy (getKey props child) = false ∧
           pkg' = Json.jobj (setKey f parent (Json.jarr elems (setKey props child v))) ∧
           fixes' = fixes ++ [msg])))) := by
  subst hpkg
  cases hpv : getKey f parent with
  | none => simp [ensureSubField, jsRead, hpv] at h
  | some pv =>
    cases pv with
    | jobj pf =>
      refine ⟨Json.jobj pf, rfl, Or.inl ⟨pf, rfl, ?_⟩⟩
      by_cases ht : jsTruthy (getKey pf child) = true
      · simp only [ensureSubField, jsRead, hpv, ht, if_true] at h
        rcases Except.ok.inj h with h'
        exact Or.inl ⟨ht, congrArg Prod.fst h'.symm, congrArg Prod.snd h'.symm⟩
      · have ht' := eq_false_of_ne_true ht
        simp only [ensureSubField, jsRead, hpv, ht', Bool.false_eq_true, if_false,
          jsWrite] at h
        rcases Except.ok.inj h with h'
        exact Or.inr ⟨ht', congrArg Prod.fst h'.symm, congrArg Prod.snd h'.symm⟩
    | jarr elems props =>
      refine ⟨Json.jarr elems props, rfl, Or.inr ⟨elems, props, rfl, ?_⟩⟩
      by_cases ht : jsTruthy (getKey props child) = true
      · simp only [ensureSubField, jsRead, hpv, ht, if_true] at h
        rcases Except.ok.inj h with h'
        exact Or.inl ⟨ht, congrArg Prod.fst h'.symm, congrArg Prod.snd h'.symm⟩
      · have ht' := eq_false_of_ne_true ht
        simp only [ensureSubField, jsRead, hpv, ht', Bool.false_eq_true, if_false,
          jsWrite] at h
        rcases Except.ok.inj h with h'
        exact Or.inr ⟨ht', congrArg Prod.fst h'.symm, congrArg Prod.snd h'.symm⟩
    | jnull => simp [ensureSubField, jsRead, hpv] at h
    | jbool b => simp [ensureSubField, jsRead, hpv, jsTruthy, jsWrite] at h
    | jnum n => simp [ensureSubField, jsRead, hpv, jsTruthy, jsWrite] at h
    | jstr s => simp [ensureSubField, jsRead, hpv, jsTruthy, jsWrite] at h

theorem ensureSubField_frame {pkg : Json} {fixes : List String}
    {parent child : String} {v : Json} {msg : String} {pkg' : Json}
    {fixes' : List String} (f : List (String × Json)) (hpkg : pkg = Json.jobj f)
    (h : ensureSubField pkg fixes parent child v msg = Except.ok (pkg', fixes')) :
    ∃ f', pkg' = Json.jobj f' ∧
      (∀ k2, k2 ≠ parent → getKey f' k2 = getKey f k2) := by
  rcases ensureSubField_ok f hpkg h with ⟨pv, hpv, hbr⟩
  rcases hbr with ⟨pf, hpveq, hbr2⟩ | ⟨elems, props, hpveq, hbr2⟩
  · rcases hbr2 with ⟨-, hp, -⟩ | ⟨-, hp, -⟩
    · exact ⟨f, by rw [hp, hpkg], fun k2 _ => rfl⟩
    · exact ⟨setKey f parent (Json.jobj (setKey pf child v)), hp,
        fun k2 hk2 => getKey_setKey_ne _ _ hk2⟩
  · rcases hbr2 with ⟨-, hp, -⟩ | ⟨-, hp, -⟩
    · exact ⟨f, by rw [hp, hpkg], fun k2 _ => rfl⟩
    · exact ⟨setKey f parent (Json.jarr elems (setKey props child v)), hp,
        fun k2 hk2 => getKey_setKey_ne _ _ hk2⟩

theorem ensureDepEntries_ok_aux (parent label : String) :
    ∀ (reqs : List (String × String)) (f pf : List (String × Json))
      (fixes : List String) (pkg' : Json) (fixes' : List String),
      ensureDepEntries parent label reqs (Json.jobj f) fixes = Except.ok (pkg', fixes') →
      getKey f parent = some (Json.jobj pf) →
      (∀ dv ∈ reqs, dv.2 ≠ "") →
      ∃ f' pf', pkg' = Json.jobj f' ∧ getKey f' parent = some (Json.jobj pf') ∧
        (∀ k2, k2 ≠ parent → getKey f' k2 = getKey f k2) ∧
        (∀ d, (∀ dv ∈ reqs, dv.1 ≠ d) → getKey pf' d = getKey pf d) ∧
        (∀ d, jsTruthy (getKey pf d) = true → jsTruthy (getKey pf' d) = true) ∧
        (∀ dv ∈ reqs, jsTruthy (getKey pf' dv.1) = true) ∧
        (jsonNormFields f = f → jsonNormFields f' = f') := by
  intro reqs
  induction reqs with
  | nil =>
    intro f pf fixes pkg' fixes' h hpf hver
    have h' : Json.jobj f = pkg' := by
      have h2 := Except.ok.inj h
      exact congrArg Prod.fst h2
    refine ⟨f, pf, h'.symm, hpf, fun k2 _ => rfl, fun d _ => rfl, fun d hd => hd, ?_,
      fun hf => hf⟩
    intro dv hdv
    exact absurd hdv (List.not_mem_nil _)
  | cons dv0 rest ih =>
    intro f pf fixes pkg' fixes' h hpf hver
    obtain ⟨d, ver⟩ := dv0
    have hvd : ver ≠ "" := hver (d, ver) (List.mem_cons_self _ _)
    have hverr : ∀ dv ∈ rest, dv.2 ≠ "" := fun dv hm => hver dv (List.mem_cons_of_mem _ hm)
    simp only [ensureDepEntries] at h
    cases hs : ensureSubField (Json.jobj f) fixes parent d (Json.jstr ver) (label ++ d) with
    | error fs =>
      rw [hs] at h
      simp at h
    | ok pr =>
      obtain ⟨pkg1, fixes1⟩ := pr
      rw [hs] at h
      rcases ensureSubField_ok f rfl hs with ⟨pv, hpv0, hbr⟩
      have hpveq : pv = Json.jobj pf := Option.some.inj (hpv0.symm.trans hpf)
      subst hpveq
      rcases hbr with ⟨pf0, hpfeq, hbr2⟩ | ⟨elems, props, hpfeq, -⟩
      · have hpfpf : pf0 = pf := (Json.jobj.inj hpfeq).symm
        subst hpfpf
        rcases hbr2 with ⟨htr, hpkg1, -⟩ | ⟨-, hpkg1, -⟩
        · rw [hpkg1] at h
          rcases ih f pf0 fixes1 pkg' fixes' h hpf hverr with
            ⟨f', pf', hj', hpf', htop, hdep, hmono, hall, hnorm⟩
          refine ⟨f', pf', hj', hpf', htop, ?_, hmono, ?_, hnorm⟩
          · intro d2 hd2
            exact hdep d2 (fun dv hm => hd2 dv (List.mem_cons_of_mem _ hm))
          · intro dv hdv
            rcases List.mem_cons.mp hdv with he | hm
            · rw [he]
              exact hmono d htr
            · exact hall dv hm
        · rw [hpkg1] at h
          have hpf2 : getKey (setKey f parent (Json.jobj (setKey pf0 d (Json.jstr ver))))
              parent = some (Json.jobj (setKey pf0 d (Json.jstr ver))) :=
            getKey_setKey_self _ _ _
          rcases ih (setKey f parent (Json.jobj (setKey pf0 d (Json.jstr ver))))
              (setKey pf0 d (Json.jstr ver)) fixes1 pkg' fixes' h hpf2 hverr with
            ⟨f', pf', hj', hpf', htop, hdep, hmono, hall, hnorm⟩
          have hvtr : jsTruthy (getKey (setKey pf0 d (Json.jstr ver)) d) = true := by
            rw [getKey_setKey_self]
            simp [jsTruthy, bne_iff_ne]
            exact hvd
          refine ⟨f', pf', hj', hpf', ?_, ?_, ?_, ?_, ?_⟩
          · intro k2 hk2
            rw [htop k2 hk2]
            exact getKey_setKey_ne _ _ hk2
          · intro d2 hd2
            have hdd2 : d ≠ d2 := hd2 (d, ver) (List.mem_cons_self _ _)
            rw [hdep d2 (fun dv hm => hd2 dv (List.mem_cons_of_mem _ hm))]
            exact getKey_setKey_ne _ _ (Ne.symm hdd2)
          · intro d2 htr2
            by_cases hdd : d2 = d
            · subst hdd
              exact hmono d2 hvtr
            · refine hmono d2 ?_
              rw [getKey_setKey_ne _ _ hdd]
              exact htr2
          · intro dv hdv
            rcases List.mem_cons.mp hdv with he | hm
            · rw [he]
              exact hmono d hvtr
            · exact hall dv hm
          · intro hf
            have hpffix : jsonNorm (Json.jobj pf0) = Json.jobj pf0 :=
              normFields_fixed_value f hf parent (Json.jobj pf0) hpf
            have hw : jsonNorm (Json.jobj (setKey pf0 d (Json.jstr ver))) =
                Json.jobj (setKey pf0 d (Json.jstr ver)) :=
              normFixed_jobj_of_fields (normFields_fixed_setKey pf0
                (normFixed_jobj_fields hpffix) d (Json.jstr ver) (jsonNorm_jstr ver))
            exact hnorm (normFields_fixed_setKey f hf parent _ hw)
      · simp at hpfeq

theorem ensureDepEntries_ok_summary {parent label : String}
    {reqs : List (String × String)} {pkg : Json} {fixes : List String}
    {pkg' : Json} {fixes' : List String} (f : List (String × Json))
    (hne : reqs ≠ []) (hpkg : pkg = Json.jobj f)
    (h : ensureDepEntries parent label reqs pkg fixes = Except.ok (pkg', fixes'))
    (hver : ∀ dv ∈ reqs, dv.2 ≠ "")
    (hnoarr : ∀ elems props, getKey f parent ≠ some (Json.jarr elems props)) :
    ∃ pf f' pf', getKey f parent = some (Json.jobj pf) ∧ pkg' = Json.jobj f' ∧
      getKey f' parent = some (Json.jobj pf') ∧
      (∀ k2, k2 ≠ parent → getKey f' k2 = getKey f k2) ∧
      (∀ d, (∀ dv ∈ reqs, dv.1 ≠ d) → getKey pf' d = getKey pf d) ∧
      (∀ d, jsTruthy (getKey pf d) = true → jsTruthy (getKey pf' d) = true) ∧
      (∀ dv ∈ reqs, jsTruthy (getKey pf' dv.1) = true) ∧
      (jsonNormFields f = f → jsonNormFields f' = f') := by
  subst hpkg
  cases reqs with
  | nil => exact absurd rfl hne
  | cons dv0 rest =>
    obtain ⟨d, ver⟩ := dv0
    have h2 := h
    simp only [ensureDepEntries] at h2
    cases hs : ensureSubField (Json.jobj f) fixes parent d (Json.jstr ver)
        (label ++ d) with
    | error fs =>
      rw [hs] at h2
      simp at h2
    | ok pr =>
      rcases ensureSubField_ok f rfl hs with ⟨pv, hpv0, hbr⟩
      rcases hbr with ⟨pf0, hpfeq, -⟩ | ⟨elems, props, hpfeq, -⟩
      · subst hpfeq
        rcases ensureDepEntries_ok_aux parent label ((d, ver) :: rest) f pf0 fixes
            pkg' fixes' h hpv0 hver with
          ⟨f', pf', hj', hpf', htop, hdep, hmono, hall, hnorm⟩
        exact ⟨pf0, f', pf', hpv0, hj', hpf', htop, hdep, hmono, hall, hnorm⟩
      · exact absurd (hpfeq ▸ hpv0) (hnoarr elems props)

theorem ensureDepEntries_frame (parent label : String) :
    ∀ (reqs : List (String × String)) (f : List (String × Json))
      (fixes : List String) (pkg' : Json) (fixes' : List String),
      ensureDepEntries parent label reqs (Json.jobj f) fixes = Except.ok (pkg', fixes') →
      ∃ f', pkg' = Json.jobj f' ∧
        (∀ k2, k2 ≠ parent → getKey f' k2 = getKey f k2) := by
  intro reqs
  induction reqs with
  | nil =>
    intro f fixes pkg' fixes' h
    have h' : Json.jobj f = pkg' := congrArg Prod.fst (Except.ok.inj h)
    exact ⟨f, h'.symm, fun k2 _ => rfl⟩
  | cons dv0 rest ih =>
    intro f fixes pkg' fixes' h
    obtain ⟨d, ver⟩ := dv0
    simp only [ensureDepEntries] at h
    cases hs : ensureSubField (Json.jobj f) fixes parent d (Json.jstr ver)
        (label ++ d) with
    | error fs =>
      rw [hs] at h
      simp at h
    | ok pr =>
      obtain ⟨pkg1, fixes1⟩ := pr
      rw [hs] at h
      rcases ensureSubField_frame f rfl hs with ⟨f1, hp1, hfr1⟩
      rw [hp1] at h
      rcases ih f1 fixes1 pkg' fixes' h with ⟨f', hp', hfr'⟩
      exact ⟨f', hp', fun k2 hk2 => (hfr' k2 hk2).trans (hfr1 k2 hk2)⟩

theorem removeBcryptDep_ok {pkg : Json} {fixes : List String} {pkg' : Json}
    {fixes' : List String} (f df : List (String × Json))
    (hpkg : pkg = Json.jobj f)
    (hdf : getKey f "dependencies" = some (Json.jobj df))
    (h : removeBcryptDep pkg fixes = Except.ok (pkg', fixes')) :
    ((jsTruthy (getKey df "bcrypt") = false ∧ pkg' = pkg ∧ fixes' = fixes) ∨
     (jsTruthy (getKey df "bcrypt") = true ∧
      pkg' = Json.jobj (setKey f "dependencies" (Json.jobj (eraseKey df "bcrypt"))) ∧
      fixes' = fixes ++ ["Removed bcrypt (using bcryptjs instead)"])) := by
  subst hpkg
  by_cases ht : jsTruthy (getKey df "bcrypt") = true
  · right
    simp only [removeBcryptDep, jsRead, hdf, ht, if_true, jsWrite] at h
    rcases Except.ok.inj h with h'
    exact ⟨ht, congrArg Prod.fst h'.symm, congrArg Prod.snd h'.symm⟩
  · left
    have ht' := eq_false_of_ne_true ht
    simp only [removeBcryptDep, jsRead, hdf, ht', Bool.false_eq_true, if_false] at h
    rcases Except.ok.inj h with h'
    exact ⟨ht', congrArg Prod.fst h'.symm, congrArg Prod.snd h'.symm⟩

theorem removeBcryptDep_ok_summary {pkg : Json} {fixes : List String} {pkg' : Json}
    {fixes' : List String} (f df : List (String × Json))
    (hpkg : pkg = Json.jobj f)
    (hdf : getKey f "dependencies" = some (Json.jobj df))
    (h : removeBcryptDep pkg fixes = Except.ok (pkg', fixes')) :
    ∃ f' df', pkg' = Json.jobj f' ∧
      getKey f' "dependencies" = some (Json.jobj df') ∧
      jsTruthy (getKey df' "bcrypt") = false ∧
      (∀ k2, k2 ≠ "dependencies" → getKey f' k2 = getKey f k2) ∧
      (∀ c2, c2 ≠ "bcrypt" → getKey df' c2 = getKey df c2) ∧
      (jsonNormFields f = f → jsonNormFields f' = f') := by
  rcases removeBcryptDep_ok f df hpkg hdf h with ⟨hb, hp, -⟩ | ⟨-, hp, -⟩
  · exact ⟨f, df, by rw [hp, hpkg], hdf, hb, fun k2 _ => rfl, fun c2 _ => rfl,
      fun hf => hf⟩
  · refine ⟨setKey f "dependencies" (Json.jobj (eraseKey df "bcrypt")),
      eraseKey df "bcrypt", hp, getKey_setKey_self _ _ _, ?_, ?_, ?_, ?_⟩
    · rw [getKey_eraseKey_self]
      rfl
    · intro k2 hk2
      exact getKey_setKey_ne _ _ hk2
    · intro c2 hc2
      exact getKey_eraseKey_ne _ hc2
    · intro hf
      have hdfn : jsonNorm (Json.jobj df) = Json.jobj df :=
        normFields_fixed_value f hf "dependencies" (Json.jobj df) hdf
      have hw : jsonNorm (Json.jobj (eraseKey df "bcrypt")) =
          Json.jobj (eraseKey df "bcrypt") :=
        normFixed_jobj_of_fields (normFields_fixed_eraseKey df
          (normFixed_jobj_fields hdfn) "bcrypt")
      exact normFields_fixed_setKey f hf "dependencies" _ hw

/-! ## Manifest-repair postconditions and idempotence -/

theorem jstr_truthy_of_ne {s : String} (h : s ≠ "") :
    jsTruthy (some (Json.jstr s)) = true := by
  simp [jsTruthy, bne_iff_ne]
  exact h

theorem backendPackageName_ne_empty (s : String) : backendPackageName s ≠ "" := by
  intro h
  have h2 : squashWsDash (jsToLower s).data ++ "-backend".data = [] := by
    have hd : (backendPackageName s).data =
        squashWsDash (jsToLower s).data ++ "-backend".data := rfl
    rw [h] at hd
    exact hd.symm
  rcases List.append_eq_nil.mp h2 with ⟨-, h3⟩
  exact absurd h3 (by decide)

/-- A successful backend-manifest repair leaves every field the later
steps assume: the output satisfies all of the try block's checks. -/
theorem jsTruthy_map_jsonNorm (o : Option Json) :
    jsTruthy (o.map jsonNorm) = jsTruthy o := by
  cases o with
  | none => rfl
  | some v => simpa using jsTruthy_jsonNorm v

/-- A successful backend-manifest repair on a parsed object whose
`dependencies` field is not an array leaves the dependency table the later
steps and the serialization see: an object holding every required entry
and no truthy bcrypt. -/
theorem bpkgCore_ok_deps {j : Json} {cfg : GenConfig} {j' : Json} {fx : List String}
    (f : List (String × Json)) (hj : j = Json.jobj f)
    (hdna : ∀ elems props, getKey f "dependencies" ≠ some (Json.jarr elems props))
    (h : fixBackendPackageJsonCore j cfg = Except.ok (j', fx)) :
    ∃ f' df, j' = Json.jobj f' ∧
      getKey f' "dependencies" = some (Json.jobj df) ∧
      (∀ dv ∈ REQUIRED_BACKEND_DEPENDENCIES, jsTruthy (getKey df dv.1) = true) ∧
      jsTruthy (getKey df "bcrypt") = false := by
  subst hj
  simp only [fixBackendPackageJsonCore] at h
  obtain ⟨p1, fx1, hs1, h⟩ := andThenFix_ok h
  obtain ⟨p2, fx2, hs2, h⟩ := andThenFix_ok h
  obtain ⟨p3, fx3, hs3, h⟩ := andThenFix_ok h
  obtain ⟨p4, fx4, hs4, h⟩ := andThenFix_ok h
  obtain ⟨p5, fx5, hs5, h⟩ := andThenFix_ok h
  obtain ⟨p6, fx6, hs6, h⟩ := andThenFix_ok h
  obtain ⟨p7, fx7, hs7, h⟩ := andThenFix_ok h
  obtain ⟨p8, fx8, hs8, h⟩ := andThenFix_ok h
  obtain ⟨p9, fx9, hs9, h⟩ := andThenFix_ok h
  obtain ⟨p10, fx10, hs10, h⟩ := andThenFix_ok h
  rcases ensureTopField_ok_summary f rfl hs1
      (jstr_truthy_of_ne (backendPackageName_ne_empty _)) with ⟨f1, hp1, -, hfr1, -, -⟩
  rcases ensureTopField_ok_summary f1 hp1 hs2 (by decide) with ⟨f2, hp2, -, hfr2, -, -⟩
  rcases ensureTopField_ok_summary f2 hp2 hs3 (by decide) with ⟨f3, hp3, -, hfr3, -, -⟩
  rcases ensureTopField_ok_summary f3 hp3 hs4 (by decide) with ⟨f4, hp4, -, hfr4, -, -⟩
  rcases ensureSubField_frame f4 hp4 hs5 with ⟨f5, hp5, hfr5⟩
  rcases ensureSubField_frame f5 hp5 hs6 with ⟨f6, hp6, hfr6⟩
  rcases ensureTopField_ok_summary f6 hp6 hs7 (by decide) with
    ⟨f7, hp7, -, hfr7, hval7, -⟩
  have hdna7 : ∀ elems props,
      getKey f7 "dependencies" ≠ some (Json.jarr elems props) := by
    rcases hval7 with he | he
    · rw [he, hfr6 _ (by decide), hfr5 _ (by decide), hfr4 _ (by decide),
        hfr3 _ (by decide), hfr2 _ (by decide), hfr1 _ (by decide)]
      exact hdna
    · rw [he]
      intro elems props hcon
      simp at hcon
  rcases ensureDepEntries_ok_summary f7 (by decide) hp7 hs8 (by decide) hdna7 with
    ⟨df7, f8, df8, hdf7, hp8, hdf8, hfr8, -, -, hdall8, -⟩
  rcases removeBcryptDep_ok_summary f8 df8 hp8 hdf8 hs9 with
    ⟨f9, df9, hp9, hdf9, hbc9, hfr9, hdfr9, -⟩
  rcases ensureTopField_ok_summary f9 hp9 hs10 (by decide) with
    ⟨f10, hp10, -, hfr10, -, -⟩
  rw [hp10] at h
  rcases ensureDepEntries_frame "devDependencies" "Added missing devDependency: "
      REQUIRED_BACKEND_DEV_DEPENDENCIES f10 fx10 j' fx h with ⟨f11, hp11, hfr11⟩
  refine ⟨f11, df9, hp11, ?_, ?_, hbc9⟩
  · rw [hfr11 _ (by decide), hfr10 _ (by decide)]
    exact hdf9
  · intro dv hdv
    have hnb : ∀ dv2 ∈ REQUIRED_BACKEND_DEPENDENCIES, dv2.1 ≠ "bcrypt" := by decide
    rw [hdfr9 dv.1 (hnb dv hdv)]
    exact hdall8 dv hdv

theorem getKey_backendStage_backend (files : List (String × FileContent))
    (cfg : GenConfig) :
    getKey (backendStage files cfg).1 "backend/package.json" =
      (match getKey files "backend/package.json" with
       | some c =>
         if contentTruthy c then some (fixBackendPackageJson c cfg).1 else some c
       | none => none) := by
  rw [backendStage]
  cases hb : getKey files "backend/package.json" with
  | none => simpa using hb
  | some c =>
    by_cases ht : contentTruthy c = true
    · simp only [ht, if_true]
      exact getKey_setKey_self _ _ _
    · simp [ht, hb]

theorem getKey_fixFiles_backendManifest (files : List (String × FileContent))
    (cfg : GenConfig) :
    getKey (validateAndFixFiles files cfg).1 "backend/package.json" =
      (match getKey files "backend/package.json" with
       | some c =>
         if contentTruthy c then some (fixBackendPackageJson c cfg).1 else some c
       | none => none) := by
  rw [validateAndFixFiles_eq]
  show getKey (eraseKey (eraseKey (eraseKey _ _) _) _) _ = _
  rw [getKey_eraseKey_ne _ (by decide), getKey_eraseKey_ne _ (by decide),
    getKey_eraseKey_ne _ (by decide), getKey_applyBcryptFixes,
    getKey_manifestStage_backend, getKey_backendStage_backend]
  have hc : (strStartsWith "backend/package.json" ("backend/") &&
      strEndsWith "backend/package.json" (".js")) = false := by decide
  cases hb : getKey files "backend/package.json" with
  | none => rfl
  | some c =>
    by_cases ht : contentTruthy c = true
    · simp [ht, hc]
    · simp [ht, hc]

/-- Every backend `.js` entry of the fixer's output fails both matched-quote
`includes` checks (shared by the bcrypt-repair and idempotence claims). -/
theorem fixFiles_output_clean (files : List (String × FileContent)) (cfg : GenConfig)
    {p : String} {c : FileContent}
    (hmem : (p, c) ∈ (validateAndFixFiles files cfg).1)
    (hpath : (strStartsWith p ("backend/") && strEndsWith p (".js")) = true) :
    contentIncludes c ("require('bcrypt')") = false ∧
    contentIncludes c ("require(\"bcrypt\")") = false := by
  rw [validateAndFixFiles_eq] at hmem
  have hm1 : (p, c) ∈ (applyBcryptFixes (manifestStage files cfg).1).1 :=
    mem_of_mem_eraseKey (mem_of_mem_eraseKey (mem_of_mem_eraseKey hmem))
  rcases mem_applyBcryptFixes hm1 with ⟨c0, -, hval⟩
  rw [if_pos hpath] at hval
  rw [hval]
  exact fixBcryptInFile_clean c0

/-- C7 counterexample: a backend source file whose only occurrence of the
deprecated package name is an ESM `import ... from 'bcrypt'` statement
passes through the fixer unchanged — the deprecated name is still present
in the output — and no backend manifest (hence no bcryptjs dependency
entry) exists in the output either, although the input's backend source
contains the deprecated name.  This refutes the claim that after `fix()`
no occurrence of the name remains in source import statements and that
the corrected package appears in the manifest's dependency list. -/
theorem C7_counterexample :
    getKey (validateAndFixFiles
        [("backend/src/services/authService.js",
          FileContent.text "import bcrypt from 'bcrypt';")] { name := "app" }).1
      "backend/src/services/authService.js" =
      some (FileContent.text "import bcrypt from 'bcrypt';") ∧
    stringIncludes "import bcrypt from 'bcrypt';" "bcrypt" = true ∧
    getKey (validateAndFixFiles
        [("backend/src/services/authService.js",
          FileContent.text "import bcrypt from 'bcrypt';")] { name := "app" }).1
      "backend/package.json" = none := by
  refine ⟨rfl, rfl, rfl⟩

/-- C7 amended: (1) in the fixer's output no backend `.js` file contains a
matching-quote `require('bcrypt')` call (the rewrite replaces each such
call with `require('bcryptjs')` and never recreates one; ESM imports and
mismatched-quote forms are not covered); (2) when a backend manifest is
present, parses as a JSON object whose `dependencies` field is not an
array, and its repair completes, the repaired manifest's `dependencies`
object holds a truthy `bcryptjs` entry and no truthy `bcrypt` entry. -/
theorem C7_bcrypt_repair :
    (∀ (files : List (String × FileContent)) (cfg : GenConfig) (p : String)
      (c : FileContent),
      (p, c) ∈ (validateAndFixFiles files cfg).1 →
      (strStartsWith p ("backend/") && strEndsWith p (".js")) = true →
      contentIncludes c ("require('bcrypt')") = false ∧
      contentIncludes c ("require(\"bcrypt\")") = false) ∧
    (∀ (files : List (String × FileContent)) (cfg : GenConfig)
      (f : List (String × Json)),
      getKey files "backend/package.json" =
        some (FileContent.jsonVal (Json.jobj f)) →
      (∀ elems props, getKey f "dependencies" ≠ some (Json.jarr elems props)) →
      backendManifestRepairOk files cfg = true →
      ∃ f' df, getKey (validateAndFixFiles files cfg).1 "backend/package.json" =
          some (FileContent.jsonVal (Json.jobj f')) ∧
        getKey f' "dependencies" = some (Json.jobj df) ∧
        jsTruthy (getKey df "bcryptjs") = true ∧
        jsTruthy (getKey df "bcrypt") = false) := by
  constructor
  · intro files cfg p c hmem hpath
    exact fixFiles_output_clean files cfg hmem hpath
  · intro files cfg f hkey hdna hok
    cases hcore : fixBackendPackageJsonCore (Json.jobj f) cfg with
    | error fs =>
      exfalso
      simp [backendManifestRepairOk, hkey, contentTruthy, hcore] at hok
    | ok pr =>
      obtain ⟨j', fx⟩ := pr
      have h3 : getKey (validateAndFixFiles files cfg).1 "backend/package.json" =
          some (FileContent.jsonVal (jsonNorm j')) := by
        rw [getKey_fixFiles_backendManifest, hkey]
        simp [contentTruthy, fixBackendPackageJson, hcore]
      rcases bpkgCore_ok_deps f rfl hdna hcore with ⟨f2, df, hj', hdf, hreq, hbc⟩
      refine ⟨jsonNormFields f2, jsonNormFields df, ?_, ?_, ?_, ?_⟩
      · rw [h3, hj', jsonNorm_jobj]
      · rw [getKey_jsonNormFields, hdf]
        show some (jsonNorm (Json.jobj df)) = _
        rw [jsonNorm_jobj]
      · rw [getKey_jsonNormFields, jsTruthy_map_jsonNorm]
        have hmem2 : ("bcryptjs", "^2.4.3") ∈ REQUIRED_BACKEND_DEPENDENCIES := by
          decide
        exact hreq ("bcryptjs", "^2.4.3") hmem2
      · rw [getKey_jsonNormFields, jsTruthy_map_jsonNorm]
        exact hbc

/-- C7 witness: both parts applied at concrete inputs — a backend source
file already using bcryptjs (part 1), and a minimal parsed backend
manifest with no dependencies field (part 2). -/
theorem C7_bcrypt_repair_witness :
    (("backend/src/auth.js", FileContent.text "const b = require('bcryptjs');") ∈
        (validateAndFixFiles
          [("backend/src/auth.js", FileContent.text "const b = require('bcryptjs');")]
          { name := "app" }).1 ∧
      (strStartsWith "backend/src/auth.js" ("backend/") &&
        strEndsWith "backend/src/auth.js" (".js")) = true ∧
      contentIncludes (FileContent.text "const b = require('bcryptjs');")
        ("require('bcrypt')") = false ∧
      contentIncludes (FileContent.text "const b = require('bcryptjs');")
        ("require(\"bcrypt\")") = false) ∧
    (getKey [("backend/package.json", FileContent.jsonVal (Json.jobj []))]
        "backend/package.json" = some (FileContent.jsonVal (Json.jobj [])) ∧
      (∀ elems props, getKey ([] : List (String × Json)) "dependencies" ≠
        some (Json.jarr elems props)) ∧
      backendManifestRepairOk
        [("backend/package.json", FileContent.jsonVal (Json.jobj []))]
        { name := "app" } = true ∧
      ∃ f' df, getKey (validateAndFixFiles
          [("backend/package.json", FileContent.jsonVal (Json.jobj []))]
          { name := "app" }).1 "backend/package.json" =
          some (FileContent.jsonVal (Json.jobj f')) ∧
        getKey f' "dependencies" = some (Json.jobj df) ∧
        jsTruthy (getKey df "bcryptjs") = true ∧
        jsTruthy (getKey df "bcrypt") = false) := by
  constructor
  · have hout : (validateAndFixFiles
        [("backend/src/auth.js", FileContent.text "const b = require('bcryptjs');")]
        { name := "app" }).1 =
        [("backend/src/auth.js", FileContent.text "const b = require('bcryptjs');")] :=
      rfl
    have hmem : ("backend/src/auth.js",
        FileContent.text "const b = require('bcryptjs');") ∈
        (validateAndFixFiles
          [("backend/src/auth.js", FileContent.text "const b = require('bcryptjs');")]
          { name := "app" }).1 := by
      rw [hout]
      exact List.mem_singleton.mpr rfl
    exact ⟨hmem, rfl, C7_bcrypt_repair.1 _ _ _ _ hmem rfl⟩
  · refine ⟨rfl, ?_, rfl, ?_⟩
    · intro elems props h
      simp [getKey] at h
    · exact C7_bcrypt_repair.2 _ _ [] rfl
        (fun elems props h => by simp [getKey] at h) rfl

/-! ## Second-pass behaviour of the fixer (idempotence up to import warnings) -/

theorem str_data_append (s t : String) : (s ++ t).data = s.data ++ t.data := rfl

theorem dropWhile_eq_self_of_all {pred : Char → Bool} (l : List Char)
    (h : ∀ c ∈ l, pred c = false) : l.dropWhile pred = l := by
  cases l with
  | nil => rfl
  | cons a as =>
    rw [List.dropWhile_cons, h a (List.mem_cons_self _ _)]
    simp

theorem takeWhile_append_stop {pred : Char → Bool} :
    ∀ (u : List Char) (b : Char) (v : List Char),
      (∀ ch ∈ u, pred ch = true) → pred b = false →
      (u ++ b :: v).takeWhile pred = u := by
  intro u
  induction u with
  | nil =>
    intro b v _ hb
    rw [List.nil_append, List.takeWhile_cons, hb]
    simp
  | cons a u' ih =>
    intro b v hu hb
    rw [List.cons_append, List.takeWhile_cons, hu a (List.mem_cons_self _ _)]
    simp only [if_true]
    rw [ih b v (fun ch h => hu ch (List.mem_cons_of_mem _ h)) hb]

theorem jsTrim_path (p : String) (hp : validFilePath p = true) :
    jsTrim p.data = p.data := by
  have hall : ∀ ch ∈ p.data, isJsWs ch = false := by
    intro ch hch
    have h2 := hp
    rw [validFilePath, Bool.and_eq_true, List.all_eq_true] at h2
    have h3 := h2.2 ch hch
    rw [Bool.and_eq_true] at h3
    simpa using h3.1
  rw [jsTrim, dropWhile_eq_self_of_all _ hall,
    dropWhile_eq_self_of_all _ (fun ch hch => hall ch (List.mem_reverse.mp hch)),
    List.reverse_reverse]

theorem jsTrim_content (c : String) (hc : validFileContent c = true) :
    jsTrim (c.data ++ ['\n']) = c.data := by
  have hc2 := hc
  rw [validFileContent, Bool.and_eq_true, Bool.and_eq_true] at hc2
  obtain ⟨⟨h1, h2⟩, -⟩ := hc2
  have h1' : c.data.dropWhile isJsWs = c.data := by simpa using h1
  have h2' : c.data.reverse.dropWhile isJsWs = c.data.reverse := by simpa using h2
  cases hcd : c.data with
  | nil => rfl
  | cons a as =>
    have ha : isJsWs a = false := by
      by_contra hn
      have ha' : isJsWs a = true := by simpa using hn
      rw [hcd, List.dropWhile_cons, ha', if_pos rfl] at h1'
      have hlc := congrArg List.length h1'
      have hle : (as.dropWhile isJsWs).length ≤ as.length :=
        (List.dropWhile_sublist _).length_le
      simp at hlc
      omega
    rw [jsTrim]
    have hfront : ((a :: as) ++ ['\n']).dropWhile isJsWs = (a :: as) ++ ['\n'] := by
      rw [List.cons_append, List.dropWhile_cons, ha]
      simp
    rw [hfront, List.reverse_append]
    have hw : isJsWs '\n' = true := by decide
    rw [hcd] at h2'
    have hrev : (['\n'].reverse ++ (a :: as).reverse).dropWhile isJsWs =
        (a :: as).reverse := by
      rw [List.reverse_singleton, List.singleton_append, List.dropWhile_cons, hw,
        if_pos rfl]
      exact h2'
    rw [hrev, List.reverse_reverse]

theorem setKey_append_of_absent {α : Type} (m : List (String × α)) (k : String)
    (v : α) (h : ∀ kv ∈ m, kv.1 ≠ k) : setKey m k v = m ++ [(k, v)] := by
  induction m with
  | nil => rfl
  | cons kv rest ih =>
    have hne : (kv.1 == k) = false :=
      beq_eq_false_iff_ne.mpr (h kv (List.mem_cons_self _ _))
    rw [show setKey (kv :: rest) k v =
        (if kv.1 == k then (k, v) :: rest else kv :: setKey rest k v) from rfl]
    rw [hne]
    simp only [Bool.false_eq_true, if_false, List.cons_append]
    rw [ih (fun kv2 hm => h kv2 (List.mem_cons_of_mem _ hm))]

theorem foldl_setKey_acc (files : List (String × String)) :
    ∀ acc : List (String × String),
      (files.map Prod.fst).Nodup →
      (∀ kv ∈ files, ∀ kv2 ∈ acc, kv2.1 ≠ kv.1) →
      files.foldl (fun acc kv => setKey acc kv.1 kv.2) acc = acc ++ files := by
  induction files with
  | nil =>
    intro acc _ _
    simp
  | cons kv rest ih =>
    intro acc hnd hdis
    rw [List.map_cons] at hnd
    rcases List.nodup_cons.mp hnd with ⟨hnotin, hnd'⟩
    rw [List.foldl_cons,
      setKey_append_of_absent acc kv.1 kv.2
        (fun kv2 hm => hdis kv (List.mem_cons_self _ _) kv2 hm),
      ih (acc ++ [kv]) hnd' ?_]
    · simp
    · intro kv' hm' kv2 hm2
      rcases List.mem_append.mp hm2 with hacc | hone
      · exact hdis kv' (List.mem_cons_of_mem _ hm') kv2 hacc
      · have hkv2 : kv2 = kv := by simpa using hone
        subst hkv2
        intro heq
        exact hnotin (heq ▸ List.mem_map_of_mem Prod.fst hm')

theorem foldl_setKey_of_nodup (files : List (String × String))
    (h : (files.map Prod.fst).Nodup) :
    files.foldl (fun acc kv => setKey acc kv.1 kv.2) [] = files := by
  have h2 := foldl_setKey_acc files [] h (by simp)
  simpa using h2

theorem findSubIdx?_of_prefixOf (pat l : List Char) (h : pat.isPrefixOf l = true) :
    findSubIdx? pat l = some 0 := by
  cases l with
  | nil =>
    have he : pat.isEmpty = true := by
      cases pat with
      | nil => rfl
      | cons a as => simp [List.isPrefixOf] at h
    simp [findSubIdx?, he]
  | cons a as => simp [findSubIdx?, h]

theorem findSubIdx?_append_of_no_occ (pat : List Char) :
    ∀ (u v : List Char),
      (∀ q, q < u.length → ¬ pat <+: ((u ++ v).drop q)) →
      findSubIdx? pat (u ++ v) =
        (findSubIdx? pat v).map (fun n => n + u.length) := by
  intro u
  induction u with
  | nil =>
    intro v _
    rw [List.nil_append]
    cases findSubIdx? pat v <;> simp
  | cons a u' ih =>
    intro v h
    have h0' := h 0 (by simp)
    have h0 : pat.isPrefixOf (a :: (u' ++ v)) = false := by
      apply eq_false_of_ne_true
      intro habs
      apply h0'
      have hpre := List.isPrefixOf_iff_prefix.mp habs
      simpa using hpre
    rw [List.cons_append]
    rw [show findSubIdx? pat (a :: (u' ++ v)) =
        (if pat.isPrefixOf (a :: (u' ++ v)) then some 0
         else (findSubIdx? pat (u' ++ v)).map (fun n => n + 1)) from rfl]
    rw [h0]
    simp only [Bool.false_eq_true, if_false]
    rw [ih v ?_]
    · cases findSubIdx? pat v <;> simp
      omega
    · intro q hq hpre
      apply h (q + 1) (by simp; omega)
      simpa using hpre

theorem no_endMarker_in_content (c : String) (hc : validFileContent c = true)
    (w : List Char) :
    ∀ q, q < (c.data ++ ['\n']).length →
      ¬ endMarker <+: (((c.data ++ ['\n']) ++ (endMarker ++ w)).drop q) := by
  intro q hq hpre
  have hqc : q ≤ c.data.length := by
    rw [List.length_append, List.length_singleton] at hq
    omega
  have h14 : endMarker.length = 14 := by decide
  have hsplit : ((c.data ++ ['\n']) ++ (endMarker ++ w)) =
      c.data ++ ('\n' :: (endMarker ++ w)) := by simp
  rw [hsplit] at hpre
  have hdrop : (c.data ++ ('\n' :: (endMarker ++ w))).drop q =
      c.data.drop q ++ ('\n' :: (endMarker ++ w)) := by
    rw [List.drop_append_eq_append_drop, Nat.sub_eq_zero_of_le hqc, List.drop_zero]
  rw [hdrop] at hpre
  by_cases hin : q + 14 ≤ c.data.length
  · rcases prefix_append_split hpre with hA | ⟨hB, -⟩
    · have hcontains : containsSeq endMarker c.data = true :=
        (containsSeq_true_iff _ _).mpr ⟨q, hA⟩
      simp [validFileContent, hcontains] at hc
    · have hlen := hB.length_le
      rw [List.length_drop, h14] at hlen
      have heq : (c.data.drop q).length = endMarker.length := by
        rw [List.length_drop, h14]
        omega
      have heql : c.data.drop q = endMarker := hB.eq_of_length heq
      have hcontains : containsSeq endMarker c.data = true :=
        (containsSeq_true_iff _ _).mpr ⟨q, by rw [heql]⟩
      simp [validFileContent, hcontains] at hc
  · have hEM := List.prefix_iff_eq_take.mp hpre
    rw [h14, List.take_append_eq_append_take] at hEM
    have hlt : (c.data.drop q).length < 14 := by
      rw [List.length_drop]
      omega
    rw [List.take_of_length_le (Nat.le_of_lt hlt)] at hEM
    obtain ⟨k, hk⟩ : ∃ k, 14 - (c.data.drop q).length = k + 1 :=
      ⟨14 - (c.data.drop q).length - 1, by omega⟩
    rw [hk, List.take_succ_cons] at hEM
    have hmem : ('\n' : Char) ∈ endMarker := by
      rw [hEM]
      exact List.mem_append_right _ (List.mem_cons_self _ _)
    exact (by decide : ('\n' : Char) ∉ endMarker) hmem

theorem findSubIdx?_endMarker (c : String) (hc : validFileContent c = true)
    (w : List Char) :
    findSubIdx? endMarker ((c.data ++ ['\n']) ++ (endMarker ++ w)) =
      some (c.data.length + 1) := by
  rw [findSubIdx?_append_of_no_occ endMarker (c.data ++ ['\n']) (endMarker ++ w)
    (no_endMarker_in_content c hc w)]
  rw [findSubIdx?_of_prefixOf endMarker (endMarker ++ w)
    (List.isPrefixOf_iff_prefix.mpr (List.prefix_append _ _))]
  simp

theorem fileMarker_not_prefix_nl (x : List Char) :
    fileMarker.isPrefixOf ('\n' :: x) = false := by
  show (['=', '=', '=', 'F', 'I', 'L', 'E', ':'] : List Char).isPrefixOf ('\n' :: x) =
    false
  simp [List.isPrefixOf]

theorem parseFileHeader_ok (p : String) (hp : validFilePath p = true)
    (t : List Char) :
    parseFileHeader (' ' :: (p.data ++ ('=' :: '=' :: '=' :: '\n' :: t))) =
      some (p.data, t) := by
  have hne : p.data ≠ [] := by
    have h2 := hp
    rw [validFilePath, Bool.and_eq_true] at h2
    simpa using h2.1
  have hall : ∀ ch ∈ p.data, (!(isJsWs ch) && ch != '=') = true := by
    have h2 := hp
    rw [validFilePath, Bool.and_eq_true, List.all_eq_true] at h2
    exact h2.2
  simp only [parseFileHeader]
  have hdw : (' ' :: (p.data ++ ('=' :: '=' :: '=' :: '\n' :: t))).dropWhile isJsWs =
      p.data ++ ('=' :: '=' :: '=' :: '\n' :: t) := by
    rw [List.dropWhile_cons, (by decide : isJsWs ' ' = true), if_pos rfl]
    cases hpd : p.data with
    | nil => exact absurd hpd hne
    | cons a as =>
      rw [List.cons_append, List.dropWhile_cons]
      have ha : isJsWs a = false := by
        have h3 := hall a (by rw [hpd]; exact List.mem_cons_self _ _)
        rw [Bool.and_eq_true] at h3
        simpa using h3.1
      rw [ha]
      simp
  rw [hdw]
  have htw : (p.data ++ ('=' :: '=' :: '=' :: '\n' :: t)).takeWhile
      (fun c => !(isJsWs c) && c != '=') = p.data :=
    takeWhile_append_stop p.data '=' _ hall (by decide)
  rw [htw]
  have hie : p.data.isEmpty = false := by
    cases hpd : p.data with
    | nil => exact absurd hpd hne
    | cons a as => rfl
  rw [hie]
  simp only [Bool.false_eq_true, if_false]
  rw [List.drop_left, List.dropWhile_cons, (by decide : isJsWs '=' = false)]
  simp

theorem serializeFileMap_length (files : List (String × String)) :
    files.length ≤ (serializeFileMap files).data.length := by
  induction files with
  | nil => simp [serializeFileMap]
  | cons kv rest ih =>
    have hkey : (serializeFileMap (kv :: rest)).data =
        (serializeFile kv.1 kv.2).data ++ ("\n\n".data ++ (serializeFileMap rest).data) := by
      show ((serializeFile kv.1 kv.2 ++ "\n\n") ++ serializeFileMap rest).data = _
      rw [str_data_append, str_data_append, List.append_assoc]
    have hb : 9 ≤ (serializeFile kv.1 kv.2).data.length := by
      have hdec : (serializeFile kv.1 kv.2).data =
          "===FILE: ".data ++ (kv.1.data ++ ("===\n".data ++
            (kv.2.data ++ "\n===END FILE===".data))) := by
        show (((("===FILE: " ++ kv.1) ++ "===\n") ++ kv.2) ++ "\n===END FILE===").data = _
        rw [str_data_append, str_data_append, str_data_append, str_data_append]
        simp [List.append_assoc]
      rw [hdec, List.length_append]
      have h9 : "===FILE: ".data.length = 9 := by decide
      rw [h9]
      exact Nat.le_add_right _ _
    rw [hkey, List.length_append]
    simp only [List.length_cons, List.length_append]
    omega

/-- The regex loop on a serialized file map (optionally preceded by the
blank-line junk left over from the previous block) returns exactly the
path/raw-capture pairs of the map, in order. -/
theorem parseFilesGo_serialize :
    ∀ (files : List (String × String)) (fuel : Nat) (junk : List Char),
      (junk = [] ∨ junk = ['\n', '\n']) →
      files.length + 1 ≤ fuel →
      (∀ kv ∈ files, validFilePath kv.1 = true ∧ validFileContent kv.2 = true) →
      parseFilesGo fuel (junk ++ (serializeFileMap files).data) =
        files.map (fun kv => (kv.1.data, kv.2.data ++ ['\n'])) := by
  intro files
  induction files with
  | nil =>
    intro fuel junk hjunk hfuel hval
    cases fuel with
    | zero => omega
    | succ f =>
      rcases hjunk with h | h <;> subst h
      · rfl
      · rfl
  | cons kv rest ih =>
    intro fuel junk hjunk hfuel hval
    obtain ⟨p, c⟩ := kv
    have hvp : validFilePath p = true := (hval (p, c) (List.mem_cons_self _ _)).1
    have hvc : validFileContent c = true := (hval (p, c) (List.mem_cons_self _ _)).2
    have hvr : ∀ kv ∈ rest, validFilePath kv.1 = true ∧ validFileContent kv.2 = true :=
      fun kv hm => hval kv (List.mem_cons_of_mem _ hm)
    cases fuel with
    | zero =>
      simp at hfuel
    | succ f =>
      have hL : junk ++ (serializeFileMap ((p, c) :: rest)).data =
          (junk ++ fileMarker) ++
            (' ' :: (p.data ++ ('=' :: '=' :: '=' :: '\n' ::
              ((c.data ++ ['\n']) ++
                (endMarker ++ ('\n' :: '\n' :: (serializeFileMap rest).data)))))) := by
        show junk ++ ((serializeFile p c ++ "\n\n") ++ serializeFileMap rest).data = _
        rw [str_data_append, str_data_append]
        have hsf : (serializeFile p c).data =
            "===FILE: ".data ++ (p.data ++ ("===\n".data ++
              (c.data ++ "\n===END FILE===".data))) := by
          show (((("===FILE: " ++ p) ++ "===\n") ++ c) ++ "\n===END FILE===").data = _
          rw [str_data_append, str_data_append, str_data_append, str_data_append]
          simp [List.append_assoc]
        rw [hsf]
        have h1 : "===FILE: ".data = fileMarker ++ [' '] := rfl
        have h2 : "===\n".data = ['=', '=', '=', '\n'] := rfl
        have h3 : "\n===END FILE===".data = '\n' :: endMarker := rfl
        have h4 : "\n\n".data = ['\n', '\n'] := rfl
        rw [h1, h2, h3, h4]
        simp [List.append_assoc]
      rw [hL]
      have hfind : findSubIdx? fileMarker ((junk ++ fileMarker) ++
          (' ' :: (p.data ++ ('=' :: '=' :: '=' :: '\n' ::
            ((c.data ++ ['\n']) ++
              (endMarker ++ ('\n' :: '\n' :: (serializeFileMap rest).data))))))) =
          some junk.length := by
        rcases hjunk with hj | hj <;> subst hj
        · rw [List.nil_append]
          rw [findSubIdx?_of_prefixOf fileMarker _
            (List.isPrefixOf_iff_prefix.mpr (List.prefix_append _ _))]
          rfl
        · have hassoc : ((['\n', '\n'] ++ fileMarker) ++
              (' ' :: (p.data ++ ('=' :: '=' :: '=' :: '\n' ::
                ((c.data ++ ['\n']) ++
                  (endMarker ++ ('\n' :: '\n' :: (serializeFileMap rest).data))))))) =
              '\n' :: ('\n' :: (fileMarker ++
                (' ' :: (p.data ++ ('=' :: '=' :: '=' :: '\n' ::
                  ((c.data ++ ['\n']) ++
                    (endMarker ++ ('\n' :: '\n' ::
                      (serializeFileMap rest).data)))))))) := by
            simp
          rw [hassoc]
          rw [show findSubIdx? fileMarker ('\n' :: ('\n' :: (fileMarker ++
              (' ' :: (p.data ++ ('=' :: '=' :: '=' :: '\n' ::
                ((c.data ++ ['\n']) ++
                  (endMarker ++ ('\n' :: '\n' ::
                    (serializeFileMap rest).data))))))))) =
              (if fileMarker.isPrefixOf ('\n' :: ('\n' :: (fileMarker ++
                (' ' :: (p.data ++ ('=' :: '=' :: '=' :: '\n' ::
                  ((c.data ++ ['\n']) ++
                    (endMarker ++ ('\n' :: '\n' ::
                      (serializeFileMap rest).data))))))))) then some 0
               else (findSubIdx? fileMarker ('\n' :: (fileMarker ++
                (' ' :: (p.data ++ ('=' :: '=' :: '=' :: '\n' ::
                  ((c.data ++ ['\n']) ++
                    (endMarker ++ ('\n' :: '\n' ::
                      (serializeFileMap rest).data))))))))).map
                  (fun n => n + 1)) from rfl]
          rw [fileMarker_not_prefix_nl]
          simp only [Bool.false_eq_true, if_false]
          rw [show findSubIdx? fileMarker ('\n' :: (fileMarker ++
              (' ' :: (p.data ++ ('=' :: '=' :: '=' :: '\n' ::
                ((c.data ++ ['\n']) ++
                  (endMarker ++ ('\n' :: '\n' ::
                    (serializeFileMap rest).data)))))))) =
              (if fileMarker.isPrefixOf ('\n' :: (fileMarker ++
                (' ' :: (p.data ++ ('=' :: '=' :: '=' :: '\n' ::
                  ((c.data ++ ['\n']) ++
                    (endMarker ++ ('\n' :: '\n' ::
                      (serializeFileMap rest).data)))))))) then some 0
               else (findSubIdx? fileMarker (fileMarker ++
                (' ' :: (p.data ++ ('=' :: '=' :: '=' :: '\n' ::
                  ((c.data ++ ['\n']) ++
                    (endMarker ++ ('\n' :: '\n' ::
                      (serializeFileMap rest).data)))))))).map
                  (fun n => n + 1)) from rfl]
          rw [fileMarker_not_prefix_nl]
          simp only [Bool.false_eq_true, if_false]
          rw [findSubIdx?_of_prefixOf fileMarker _
            (List.isPrefixOf_iff_prefix.mpr (List.prefix_append _ _))]
          rfl
      have hdrop8 : ((junk ++ fileMarker) ++
          (' ' :: (p.data ++ ('=' :: '=' :: '=' :: '\n' ::
            ((c.data ++ ['\n']) ++
              (endMarker ++ ('\n' :: '\n' :: (serializeFileMap rest).data))))))).drop
          (junk.length + 8) =
          ' ' :: (p.data ++ ('=' :: '=' :: '=' :: '\n' ::
            ((c.data ++ ['\n']) ++
              (endMarker ++ ('\n' :: '\n' :: (serializeFileMap rest).data))))) := by
        have hlen : (junk ++ fileMarker).length = junk.length + 8 := by
          rw [List.length_append, (by decide : fileMarker.length = 8)]
        rw [← hlen, List.drop_left]
      have htake : ((c.data ++ ['\n']) ++
          (endMarker ++ ('\n' :: '\n' :: (serializeFileMap rest).data))).take
          (c.data.length + 1) = c.data ++ ['\n'] := by
        have hlen : (c.data ++ ['\n']).length = c.data.length + 1 := by
          rw [List.length_append, List.length_singleton]
        rw [← hlen, List.take_left]
      have hdropE : ((c.data ++ ['\n']) ++
          (endMarker ++ ('\n' :: '\n' :: (serializeFileMap rest).data))).drop
          (c.data.length + 1 + 14) = '\n' :: '\n' :: (serializeFileMap rest).data := by
        rw [List.drop_append_eq_append_drop]
        have hlen : (c.data ++ ['\n']).length = c.data.length + 1 := by
          rw [List.length_append, List.length_singleton]
        rw [List.drop_eq_nil_of_le (by rw [hlen]; omega), List.nil_append,
          show c.data.length + 1 + 14 - (c.data ++ ['\n']).length = 14 from by
            rw [hlen]; omega]
        have h14 : endMarker.length = 14 := by decide
        rw [← h14, List.drop_left]
      have hrec : parseFilesGo f ('\n' :: '\n' :: (serializeFileMap rest).data) =
          rest.map (fun kv => (kv.1.data, kv.2.data ++ ['\n'])) := by
        have h0 := ih f ['\n', '\n'] (Or.inr rfl)
          (by simp at hfuel; omega) hvr
        simpa using h0
      simp only [parseFilesGo, hfind, hdrop8, parseFileHeader_ok p hvp,
        findSubIdx?_endMarker c hvc, htake, hdropE, hrec, List.map_cons]

/-- C8: serializing a file map with valid paths and contents into the
`===FILE: path===` / `===END FILE===` marker format and parsing the
concatenation back yields exactly the original mapping, keys and contents
byte for byte. -/
theorem C8_parser_round_trip :
    ∀ files : List (String × String),
      (files.map Prod.fst).Nodup →
      (∀ kv ∈ files, validFilePath kv.1 = true ∧ validFileContent kv.2 = true) →
      parseMultiFileResponse (serializeFileMap files) = files := by
  intro files hnd hval
  rw [parseMultiFileResponse]
  have hfuel : files.length + 1 ≤ (serializeFileMap files).data.length + 1 := by
    have := serializeFileMap_length files
    omega
  have hgo := parseFilesGo_serialize files ((serializeFileMap files).data.length + 1)
    [] (Or.inl rfl) hfuel hval
  rw [List.nil_append] at hgo
  rw [hgo, List.foldl_map]
  rw [List.foldl_ext _ (fun acc (kv : String × String) => setKey acc kv.1 kv.2) []
    ?_]
  · exact foldl_setKey_of_nodup files hnd
  · intro acc kv hm
    have hvp := (hval kv hm).1
    have hvc := (hval kv hm).2
    show setKey acc (String.mk (jsTrim kv.1.data))
        (String.mk (jsTrim (kv.2.data ++ ['\n']))) = setKey acc kv.1 kv.2
    rw [jsTrim_path kv.1 hvp, jsTrim_content kv.2 hvc]

/-- C8 witness: the round trip evaluated on a concrete two-file map. -/
theorem C8_parser_round_trip_witness :
    (([("backend/server.js", "const a = 1;"), ("frontend/app.js", "let b = 2;")].map
        Prod.fst).Nodup ∧
      (∀ kv ∈ [("backend/server.js", "const a = 1;"),
        ("frontend/app.js", "let b = 2;")],
        validFilePath kv.1 = true ∧ validFileContent kv.2 = true)) ∧
    parseMultiFileResponse (serializeFileMap
        [("backend/server.js", "const a = 1;"), ("frontend/app.js", "let b = 2;")]) =
      [("backend/server.js", "const a = 1;"), ("frontend/app.js", "let b = 2;")] :=
  ⟨⟨by decide, by decide⟩,
    C8_parser_round_trip
      [("backend/server.js", "const a = 1;"), ("frontend/app.js", "let b = 2;")]
      (by decide) (by decide)⟩

end AIPlatform
